import Mathlib

/-!
# Verification of the ts-entities annotation-driven equality/copy synthesizer

This file is a shallow embedding, in Lean 4, of the core of the `ts-entities`
library: the reflect-metadata store populated by the `Entity`, `Comparable`,
`Copyable`, `EntityField` and `Copy` class/property/parameter annotations, and
the two synthesized operations `isEqual` and `copy` installed by the `Entity`
class decorator.  The repository ships two revisions of the decorators module;
the embedding follows the current one (the revision with sequence support,
whose behaviour is the one documented in the README).

Modelling conventions:

* A runtime value is `Value`: a primitive (`null`, `undefined`, an integer, a
  string, or an opaque reference to a non-entity object with no numeric
  properties), an ordered sequence (a JS array), or a class instance
  `ent t fields` where `t` is the identity of its constructor and `fields` is
  the instance's own enumerable properties in insertion order (`Object.keys`
  order).  JS numbers are modelled as integers together with the
  distinguished `NaN` value; other floating-point subtleties (such as `-0`)
  are out of scope.
* `===` is modelled by `strictEq`: exact on primitives — in particular
  `NaN === x` is false for every `x`, including `NaN` itself — while object
  references are identified structurally, which is adequate here because the
  algorithms only ever apply `===` either to primitives or to a value and
  itself/its shallow-reused copy.
* The metadata store is `Metadata`: the per-type `comparable`/`copyable` flags,
  the per-type entity mark, and the per-type list of `Copy` parameter
  annotations in declaration order.  Absent metadata is coerced to the
  `false` flags and the empty parameter list, exactly as `isComparable`,
  `isCopyable`, `isEntity` and `getCopyArgs` in `utils.ts` coerce it.
* Fallible operations return `Except JsError _`.  `copy` both returns a value
  and updates the store, because `getCopyArgs(constructor).sort(copyParamSort)`
  sorts the array stored in the metadata in place; it is therefore modelled
  with explicit state passing as `copyS : Metadata → Value → _ × Metadata`.
* `property in other` is modelled as membership among `other`'s own fields;
  instance fields whose names collide with the two installed method names are
  out of scope.
* A class marked with the entity metadata flag is exactly a class whose
  prototype received the two synthesized methods (both happen together in the
  `Entity` decorator), so dynamic dispatch `thisValue.isEqual(...)` /
  `original.copy()` is modelled by recursion on the value's own type tag.
-/

/-- A JS primitive (or opaque non-entity object reference, `ref`).  `ref`
models a plain object that is not an instance of any `Entity`-decorated class
and has no numeric `length`/index properties; `===` on two such references is
their identity, modelled by the reference token. -/
inductive Prim where
  | jsNull
  | jsUndefined
  | num (n : Int)
  | nan
  | str (s : String)
  | ref (r : Nat)
deriving DecidableEq, Repr

/-- A JS runtime value as seen by the synthesized operations: a primitive, an
array, or a class instance with a constructor identity and its own enumerable
properties in insertion order. -/
inductive Value where
  | prim (p : Prim)
  | arr (elems : List Value)
  | ent (t : Nat) (fields : List (String × Value))
deriving Repr

/-- A `Copy(name)` annotation on the constructor parameter at `index`
(`CopyParam` in `utils.ts`). -/
structure CopyParam where
  name : String
  index : Nat
deriving DecidableEq, Repr

/-- The reflect-metadata store, keyed by constructor identity: the
`entityMetadataKey` mark on the prototype, the per-property
`comparableMetadataKey`/`copyMetadataKey` flags, and the `copyArgsMetadataKey`
list on the constructor.  Absent metadata is the `false`/`[]` default. -/
structure Metadata where
  entity : Nat → Bool
  comparable : Nat → String → Bool
  copyable : Nat → String → Bool
  copyArgs : Nat → List CopyParam

/-- Structural size of a `Value`, used as the termination measure of the
mutually recursive synthesized operations. -/
def vsize : Value → Nat
  | .prim _ => 1
  | .arr xs => 1 + lsize xs
  | .ent _ fs => 1 + fsize fs
where
  /-- Size of a list of element values. -/
  lsize : List Value → Nat
    | [] => 0
    | x :: xs => vsize x + lsize xs
  /-- Size of a property list; at least 1, so that a failed property lookup
  (which yields `undefined`, of size 1) never exceeds it. -/
  fsize : List (String × Value) → Nat
    | [] => 1
    | (_, v) :: fs => 1 + vsize v + fsize fs

/-- JS `===` on values: exact on primitives — `NaN` is strictly equal to
nothing, not even itself — while objects are identified structurally (see the
file header). -/
def strictEq : Value → Value → Bool
  | .prim .nan, _ => false
  | _, .prim .nan => false
  | .prim p, .prim q => p = q
  | .arr xs, .arr ys => strictEqList xs ys
  | .ent t fs, .ent u gs => t = u && strictEqFields fs gs
  | _, _ => false
where
  strictEqList : List Value → List Value → Bool
    | [], [] => true
    | x :: xs, y :: ys => strictEq x y && strictEqList xs ys
    | _, _ => false
  strictEqFields : List (String × Value) → List (String × Value) → Bool
    | [], [] => true
    | (k, v) :: fs, (l, w) :: gs => k = l && strictEq v w && strictEqFields fs gs
    | _, _ => false

/-- No `NaN` occurs anywhere inside the value: exactly the condition under
which JS `===` is reflexive on it. -/
def nanFree : Value → Bool
  | .prim .nan => false
  | .prim _ => true
  | .arr xs => nanFreeList xs
  | .ent _ fs => nanFreeFields fs
where
  nanFreeList : List Value → Bool
    | [] => true
    | x :: xs => nanFree x && nanFreeList xs
  nanFreeFields : List (String × Value) → Bool
    | [] => true
    | (_, v) :: fs => nanFree v && nanFreeFields fs

/-- Property access `obj[p]`: the value of the first binding of `p` among the
own fields, or `undefined` when absent (a JS object has at most one binding
per key; lists with duplicate keys are outside the JS image). -/
def getField (fs : List (String × Value)) (p : String) : Value :=
  match fs.find? (fun kv => kv.1 = p) with
  | some kv => kv.2
  | none => .prim .jsUndefined

/-- The membership test `p in obj`, restricted to own fields. -/
def hasKey (fs : List (String × Value)) (p : String) : Bool :=
  fs.any (fun kv => kv.1 = p)

/-- `isEntity` from `utils.ts`: a value is an entity iff it is truthy, is an
object with a constructor, and that constructor's prototype carries the
`entityMetadataKey` mark.  `null`/`undefined` are falsy, and primitives,
arrays and plain objects have unmarked prototypes, so only class instances of
a marked type qualify. -/
def isEntity (md : Metadata) : Value → Bool
  | .ent t _ => md.entity t
  | _ => false

/-- The errors the synthesized operations can raise: the two `TypeError`s of
`verifyCopyable` (each carrying the offending name), and the `TypeError`
raised by reading `.length` of `null`/`undefined`. -/
inductive JsError where
  | propertyMismatch (name : String)
  | argumentMismatch (name : String)
  | lengthOfNullish
deriving DecidableEq, Repr

/-- Reading `v.length`: throws on `null`/`undefined`; arrays and strings have
a numeric length; every other modelled value yields `undefined` (`none`). -/
def jsLengthE : Value → Except JsError (Option Nat)
  | .prim .jsNull => .error .lengthOfNullish
  | .prim .jsUndefined => .error .lengthOfNullish
  | .arr l => .ok (some l.length)
  | .prim (.str s) => .ok (some s.length)
  | _ => .ok none

/-- Reading `v[i]` for a numeric index: array element, single-character
string, or `undefined`. -/
def jsIndex : Value → Nat → Value
  | .arr l, i => l.getD i (.prim .jsUndefined)
  | .prim (.str s), i =>
      match s.data.get? i with
      | some c => .prim (.str (String.mk [c]))
      | none => .prim .jsUndefined
  | _, _ => .prim .jsUndefined

/-- `Array.prototype.sort(copyParamSort)` with the comparator
`a.index > b.index ? 1 : -1`: a stable ascending sort by `index`.  (For
distinct indices this is the unique ascending order; for duplicate indices the
JS engine's order is unspecified and the model commits to stability.) -/
def sortCopyParams (l : List CopyParam) : List CopyParam :=
  l.insertionSort (fun a b => a.index ≤ b.index)

/-- `verifyCopyable` from `utils.ts`, returning the thrown `TypeError` (if
any) as a value: the first copyable property with no matching constructor
argument annotation is reported first; otherwise the first annotated argument
with no matching property annotation. -/
def verifyCopyable (copyableProperties : List String) (annotatedParams : List CopyParam) :
    Option JsError :=
  let paramsSet := annotatedParams.map CopyParam.name
  match copyableProperties.find? (fun p => !(paramsSet.contains p)) with
  | some p => some (.propertyMismatch p)
  | none =>
      match annotatedParams.find? (fun pa => !(copyableProperties.contains pa.name)) with
      | some pa => some (.argumentMismatch pa.name)
      | none => none

/-- Modelled from the spec: the reconstruction path `new constructor(...values)`
invoked at the end of `copy`.  The constructor itself is user code outside the
synthesizer; per the spec's reconstruction contract (and the `Copy` decorator's
documented contract, followed by the repository's example classes), the
constructor stores each annotated parameter into the field it names, so the
new instance's own fields are the sorted parameter names paired positionally
with the argument list. -/
def construct (t : Nat) (names : List String) (values : List Value) : Value :=
  .ent t (names.zip values)

/-- `Comparable()` property annotation: sets the comparable flag. -/
def markComparable (md : Metadata) (t : Nat) (p : String) : Metadata :=
  { md with comparable := fun u q => if u = t ∧ q = p then true else md.comparable u q }

/-- `Copyable()` property annotation: sets the copyable flag. -/
def markCopyable (md : Metadata) (t : Nat) (p : String) : Metadata :=
  { md with copyable := fun u q => if u = t ∧ q = p then true else md.copyable u q }

/-- `EntityField()` property annotation: `Comparable()` then `Copyable()`. -/
def markEntityField (md : Metadata) (t : Nat) (p : String) : Metadata :=
  markCopyable (markComparable md t p) t p

/-- `Copy(name)` parameter annotation: appends `{name, index}` to the stored
copy-argument list of the constructor. -/
def markCopyParam (md : Metadata) (t : Nat) (name : String) (index : Nat) : Metadata :=
  { md with copyArgs := fun u => if u = t then md.copyArgs t ++ [⟨name, index⟩] else md.copyArgs u }

/-- `Entity` class annotation: marks the prototype with the entity flag (and
installs the two synthesized methods, which the model represents by the
functions below applying to every marked type). -/
def markEntity (md : Metadata) (t : Nat) : Metadata :=
  { md with entity := fun u => if u = t then true else md.entity u }

/- ### Basic lemmas about the embedding -/

theorem vsize_pos (v : Value) : 1 ≤ vsize v := by
  cases v <;> simp only [vsize] <;> omega

theorem fsize_pos (fs : List (String × Value)) : 1 ≤ vsize.fsize fs := by
  cases fs with
  | nil => simp [vsize.fsize]
  | cons kv rest => simp only [vsize.fsize]; omega

theorem getField_cons (kv : String × Value) (fs : List (String × Value)) (p : String) :
    getField (kv :: fs) p = if kv.1 = p then kv.2 else getField fs p := by
  by_cases h : kv.1 = p <;> simp [getField, List.find?, h]

theorem vsize_getField_le (fs : List (String × Value)) (p : String) :
    vsize (getField fs p) ≤ vsize.fsize fs := by
  induction fs with
  | nil => simp [getField, vsize, vsize.fsize]
  | cons kv rest ih =>
      rw [getField_cons]
      by_cases h : kv.1 = p
      · simp only [h, if_true, vsize.fsize]
        omega
      · simp only [h, if_false, vsize.fsize]
        omega

/- ### The synthesized equality -/

mutual

/-- The synthesized `isEqual` method, at the receiver's own type: `false`
unless `other` is an instance of the same constructor, otherwise the loop over
the receiver's own comparable property names. -/
def isEqualE (md : Metadata) : Value → Value → Except JsError Bool
  | .ent t tf, .ent t2 of2 =>
      if t2 = t then
        propsLoop md tf of2 ((tf.map Prod.fst).filter (fun k => md.comparable t k))
      else pure false
  | _, _ => pure false
termination_by v _ => (8 * vsize v + 2, 0)
decreasing_by
  apply Prod.Lex.left
  simp only [vsize]
  omega

/-- The `for (const property of properties)` loop of `isEqual`: a property
absent on `other` short-circuits to `false`; otherwise the per-field
comparison decides whether to continue. -/
def propsLoop (md : Metadata) (tf of2 : List (String × Value)) :
    List String → Except JsError Bool
  | [] => pure true
  | p :: rest =>
      if hasKey of2 p then do
        let b ← compareFieldValues md (getField tf p) (getField of2 p)
        if b then propsLoop md tf of2 rest else pure false
      else pure false
termination_by props => (8 * vsize.fsize tf + 9, props.length)
decreasing_by
  · apply Prod.Lex.left
    have := vsize_getField_le tf p
    omega
  · apply Prod.Lex.right
    simp

/-- The per-field comparison of `isEqual`: if the receiver's value is an
array, compare `.length`s (reading the length of the other side, which throws
on `null`/`undefined`) and then elementwise; otherwise `areFieldsEqual`. -/
def compareFieldValues (md : Metadata) (tv ov : Value) : Except JsError Bool :=
  match tv with
  | .arr xs => do
      let olen ← jsLengthE ov
      if some xs.length ≠ olen then pure false
      else seqLoop md xs ov 0
  | tv => areFieldsEqualE md tv ov
termination_by (8 * vsize tv + 8, 0)
decreasing_by
  all_goals apply Prod.Lex.left
  all_goals (try simp only [vsize, vsize.lsize])
  all_goals omega

/-- The `for (let i = 0; ...)` loop of `isEqual`'s array branch: elementwise
`areFieldsEqual` against `other[property][i]`, short-circuiting on the first
mismatch. -/
def seqLoop (md : Metadata) : List Value → Value → Nat → Except JsError Bool
  | [], _, _ => pure true
  | x :: rest, ov, i => do
      let b ← areFieldsEqualE md x (jsIndex ov i)
      if b then seqLoop md rest ov (i + 1) else pure false
termination_by xs _ _ => (8 * vsize.lsize xs + 4, 0)
decreasing_by
  · apply Prod.Lex.left
    simp only [vsize.lsize]
    have := vsize_pos x
    omega
  · apply Prod.Lex.left
    simp only [vsize.lsize]
    have := vsize_pos x
    omega

/-- `areFieldsEqual`: delegate to the receiver-side value's own `isEqual` when
it is an entity, otherwise `===`. -/
def areFieldsEqualE (md : Metadata) (tv ov : Value) : Except JsError Bool :=
  if isEntity md tv then isEqualE md tv ov else pure (strictEq tv ov)
termination_by (8 * vsize tv + 3, 0)
decreasing_by
  apply Prod.Lex.left
  omega

end

/- ### The synthesized copy -/

mutual

/-- The synthesized `copy` method, with the metadata store threaded through,
because `getCopyArgs(constructor).sort(copyParamSort)` sorts the stored
copy-argument array in place (before `verifyCopyable` runs, so the write
happens even when validation then throws).  On a non-entity receiver the
method does not exist; the model returns the value unchanged (this case is
unreachable: `copy` is only invoked on entity values). -/
def copyS (md : Metadata) : Value → (Except JsError Value) × Metadata
  | .ent t fs =>
      let copyableProperties := (fs.map Prod.fst).filter (fun k => md.copyable t k)
      let annotatedArguments := sortCopyParams (md.copyArgs t)
      let md1 : Metadata :=
        { md with copyArgs := fun u => if u = t then annotatedArguments else md.copyArgs u }
      match verifyCopyable copyableProperties annotatedArguments with
      | some e => (.error e, md1)
      | none =>
          match copyArgsLoop md1 fs annotatedArguments with
          | (.error e, md2) => (.error e, md2)
          | (.ok values, md2) =>
              (.ok (construct t (annotatedArguments.map CopyParam.name) values), md2)
  | v => (.ok v, md)
termination_by v => (8 * vsize v + 2, 0)
decreasing_by
  apply Prod.Lex.left
  simp only [vsize]
  omega

/-- The `annotatedArguments.map(({name}) => ...)` loop of `copy`, building the
reconstruction argument list in sorted position order. -/
def copyArgsLoop (md : Metadata) (fs : List (String × Value)) :
    List CopyParam → (Except JsError (List Value)) × Metadata
  | [] => (.ok [], md)
  | pa :: rest =>
      match copyValueS md (getField fs pa.name) with
      | (.error e, md') => (.error e, md')
      | (.ok v, md') =>
          match copyArgsLoop md' fs rest with
          | (.error e, md'') => (.error e, md'')
          | (.ok vs, md'') => (.ok (v :: vs), md'')
termination_by params => (8 * vsize.fsize fs + 9, params.length)
decreasing_by
  · apply Prod.Lex.left
    have := vsize_getField_le fs pa.name
    omega
  · apply Prod.Lex.right
    simp

/-- The per-argument rule of `copy`: an array field maps `copyField` over its
elements into a fresh array; any other value goes through `copyField`
directly. -/
def copyValueS (md : Metadata) : Value → (Except JsError Value) × Metadata
  | .arr xs =>
      match copyElemsLoop md xs with
      | (.error e, md') => (.error e, md')
      | (.ok zs, md') => (.ok (.arr zs), md')
  | v => copyFieldS md v
termination_by v => (8 * vsize v + 8, 0)
decreasing_by
  all_goals apply Prod.Lex.left
  all_goals (try simp only [vsize, vsize.lsize])
  all_goals omega

/-- `copyField`: a non-entity value is reused as-is; an entity value is
replaced by its own `copy()`. -/
def copyFieldS (md : Metadata) (v : Value) : (Except JsError Value) × Metadata :=
  if isEntity md v then copyS md v else (.ok v, md)
termination_by (8 * vsize v + 3, 0)
decreasing_by
  apply Prod.Lex.left
  omega

/-- `thisValue.map(copyField)` on an array-valued copyable field. -/
def copyElemsLoop (md : Metadata) : List Value → (Except JsError (List Value)) × Metadata
  | [] => (.ok [], md)
  | x :: rest =>
      match copyFieldS md x with
      | (.error e, md') => (.error e, md')
      | (.ok z, md') =>
          match copyElemsLoop md' rest with
          | (.error e, md'') => (.error e, md'')
          | (.ok zs, md'') => (.ok (z :: zs), md'')
termination_by xs => (8 * vsize.lsize xs + 4, 0)
decreasing_by
  · apply Prod.Lex.left
    simp only [vsize.lsize]
    have := vsize_pos x
    omega
  · apply Prod.Lex.left
    simp only [vsize.lsize]
    have := vsize_pos x
    omega

end


/- ### Unfolding and evaluation lemmas -/

theorem hasKey_iff_mem (fs : List (String × Value)) (p : String) :
    hasKey fs p = true ↔ p ∈ fs.map Prod.fst := by
  simp [hasKey, List.any_eq_true, List.mem_map]

theorem propsLoop_nil (md : Metadata) (tf of2 : List (String × Value)) :
    propsLoop md tf of2 [] = .ok true := by
  rw [propsLoop]
  rfl

theorem propsLoop_cons (md : Metadata) (tf of2 : List (String × Value)) (p : String)
    (rest : List String) :
    propsLoop md tf of2 (p :: rest) =
      if hasKey of2 p then
        match compareFieldValues md (getField tf p) (getField of2 p) with
        | .error e => .error e
        | .ok true => propsLoop md tf of2 rest
        | .ok false => .ok false
      else .ok false := by
  rw [propsLoop]
  by_cases h : hasKey of2 p
  · simp only [h, if_true]
    cases hc : compareFieldValues md (getField tf p) (getField of2 p) with
    | error e => simp [Bind.bind, Except.bind]
    | ok b => cases b <;> simp [Bind.bind, Except.bind, Pure.pure, Except.pure]
  · simp only [h, if_false]
    rfl

theorem seqLoop_nil (md : Metadata) (ov : Value) (i : Nat) :
    seqLoop md [] ov i = .ok true := by
  rw [seqLoop]
  rfl

theorem seqLoop_cons (md : Metadata) (x : Value) (rest : List Value) (ov : Value) (i : Nat) :
    seqLoop md (x :: rest) ov i =
      match areFieldsEqualE md x (jsIndex ov i) with
      | .error e => .error e
      | .ok true => seqLoop md rest ov (i + 1)
      | .ok false => .ok false := by
  rw [seqLoop]
  cases hc : areFieldsEqualE md x (jsIndex ov i) with
  | error e => simp [Bind.bind, Except.bind]
  | ok b => cases b <;> simp [Bind.bind, Except.bind, Pure.pure, Except.pure]

/- ### The spec-side elementwise comparison (for the sequence-field claim) -/

/-- Modelled from the spec: elementwise application of the per-element rule to
corresponding positions of two same-length sequences, short-circuiting on the
first mismatch. -/
def pairwiseCompare (md : Metadata) : List (Value × Value) → Except JsError Bool
  | [] => pure true
  | (x, y) :: rest => do
      let b ← areFieldsEqualE md x y
      if b then pairwiseCompare md rest else pure false

theorem pairwiseCompare_cons (md : Metadata) (x y : Value) (rest : List (Value × Value)) :
    pairwiseCompare md ((x, y) :: rest) =
      match areFieldsEqualE md x y with
      | .error e => .error e
      | .ok true => pairwiseCompare md rest
      | .ok false => .ok false := by
  rw [pairwiseCompare]
  cases hc : areFieldsEqualE md x y with
  | error e => simp [Bind.bind, Except.bind]
  | ok b => cases b <;> simp [Bind.bind, Except.bind, Pure.pure, Except.pure]

theorem getD_append_cons (ys1 : List Value) (y : Value) (ys2 : List Value) (d : Value) :
    (ys1 ++ y :: ys2).getD ys1.length d = y := by
  induction ys1 with
  | nil => rfl
  | cons a ys1 ih => simpa using ih

theorem seqLoop_eq_pairwise (md : Metadata) :
    ∀ (xs ys1 ys2 : List Value), xs.length = ys2.length →
      seqLoop md xs (.arr (ys1 ++ ys2)) ys1.length = pairwiseCompare md (xs.zip ys2) := by
  intro xs
  induction xs with
  | nil =>
      intro ys1 ys2 h
      rw [seqLoop_nil, List.zip_nil_left, pairwiseCompare]
      rfl
  | cons x rest ih =>
      intro ys1 ys2 h
      cases ys2 with
      | nil => simp at h
      | cons y ys2 =>
          rw [seqLoop_cons, List.zip_cons_cons, pairwiseCompare_cons]
          have hidx : jsIndex (.arr (ys1 ++ y :: ys2)) ys1.length = y := by
            simp only [jsIndex]
            exact getD_append_cons ys1 y ys2 _
          rw [hidx]
          cases areFieldsEqualE md x y with
          | error e => rfl
          | ok b =>
              cases b
              · rfl
              · have := ih (ys1 ++ [y]) ys2 (by simpa using h)
                simpa [List.append_assoc] using this

/- ### Claim C2: sequence-valued comparable fields -/

/-- C2: for a comparable field whose values on both sides are ordered
sequences, the synthesized equality's per-field comparison (the function
`isEqualE`'s property loop applies at each comparable field) returns `false`
when the two sequences have different lengths, and for equal lengths it is the
elementwise, short-circuiting application of the per-element rule
(`areFieldsEqualE`: delegate to the left element's own `isEqual` when the left
element is a synthesized record, otherwise primitive `===`) to corresponding
positions. -/
theorem c2_sequence_comparison (md : Metadata) (xs ys : List Value) :
    compareFieldValues md (.arr xs) (.arr ys) =
      if xs.length = ys.length then pairwiseCompare md (xs.zip ys) else .ok false := by
  rw [compareFieldValues]
  simp only [jsLengthE, Bind.bind, Except.bind]
  by_cases h : xs.length = ys.length
  · simp only [h, ne_eq, not_true_eq_false, if_false, if_pos]
    have := seqLoop_eq_pairwise md xs [] ys h
    simpa using this
  · have hne : some xs.length ≠ some ys.length := by
      intro hc
      exact h (Option.some.inj hc)
    simp only [ne_eq, hne, not_false_eq_true, if_true, h, if_false]
    rfl

/- ### Claim C4: a comparable field absent on `other` -/

theorem propsLoop_ok_true_hasKey (md : Metadata) (tf of2 : List (String × Value)) :
    ∀ props : List String, propsLoop md tf of2 props = .ok true →
      ∀ q ∈ props, hasKey of2 q = true := by
  intro props
  induction props with
  | nil => intro _ q hq; cases hq
  | cons p rest ih =>
      intro h q hq
      rw [propsLoop_cons] at h
      by_cases hk : hasKey of2 p
      · rw [if_pos hk] at h
        rcases List.mem_cons.mp hq with rfl | hq2
        · exact hk
        · revert h
          cases compareFieldValues md (getField tf p) (getField of2 p) with
          | error e => intro h; cases h
          | ok b =>
              cases b
              · intro h; cases h
              · intro h; exact ih h q hq2
      · rw [if_neg hk] at h
        cases h

/-- C4: if a comparable own field of the receiver is absent (by membership
test) on `other`, the property loop returns `false` immediately — regardless
of the receiver-side value and of all remaining fields — and consequently the
whole synthesized `isEqual` cannot return `true`. -/
theorem c4_absent_comparable_field :
    (∀ (md : Metadata) (tf of2 : List (String × Value)) (p : String) (rest : List String),
        hasKey of2 p = false → propsLoop md tf of2 (p :: rest) = .ok false) ∧
    (∀ (md : Metadata) (t : Nat) (tf : List (String × Value)) (t2 : Nat)
        (of2 : List (String × Value)) (p : String),
        md.comparable t p = true → p ∈ tf.map Prod.fst → hasKey of2 p = false →
        isEqualE md (.ent t tf) (.ent t2 of2) ≠ .ok true) := by
  constructor
  · intro md tf of2 p rest h
    rw [propsLoop_cons, if_neg (by simp [h])]
  · intro md t tf t2 of2 p hcmp hmem hkey heq
    rw [isEqualE] at heq
    by_cases ht : t2 = t
    · rw [if_pos ht] at heq
      have hp : p ∈ (tf.map Prod.fst).filter (fun k => md.comparable t k) := by
        rw [List.mem_filter]
        exact ⟨hmem, by simp [hcmp]⟩
      have := propsLoop_ok_true_hasKey md tf of2 _ heq p hp
      rw [hkey] at this
      cases this
    · rw [if_neg ht] at heq
      cases heq

/- ### Claim C5: values of a different type -/

/-- C5: the synthesized `isEqual` of an instance of a marked type returns
`false` on every argument that is not an instance of the very same type —
primitives, arrays, and instances of any other constructor (even with
identical field shape). -/
theorem c5_exact_type (md : Metadata) (t : Nat) (tf : List (String × Value)) (x : Value)
    (_hmark : md.entity t = true) (hne : ∀ gs, x ≠ .ent t gs) :
    isEqualE md (.ent t tf) x = .ok false := by
  cases x with
  | prim p => simp [isEqualE, Pure.pure, Except.pure]
  | arr xs => simp [isEqualE, Pure.pure, Except.pure]
  | ent t2 of2 =>
      have ht : t2 ≠ t := by
        intro h
        exact hne of2 (by rw [h])
      rw [isEqualE, if_neg ht]
      rfl

/- ### Claim C10: the record-ness test on nullish and non-entity values -/

/-- C10: the record-ness test `isEntity` used by both algorithms returns
`false` on `null`, `undefined`, every primitive, every array, and every
instance of an unmarked type; consequently such a value is compared with
primitive `===` by `areFieldsEqual` and reused as-is by `copyField`, and no
method is ever invoked on it. -/
theorem c10_nullish_not_entity (md : Metadata) :
    isEntity md (.prim .jsNull) = false ∧
    isEntity md (.prim .jsUndefined) = false ∧
    (∀ p, isEntity md (.prim p) = false) ∧
    (∀ xs, isEntity md (.arr xs) = false) ∧
    (∀ t fs, md.entity t = false → isEntity md (.ent t fs) = false) ∧
    (∀ v ov, isEntity md v = false → areFieldsEqualE md v ov = .ok (strictEq v ov)) ∧
    (∀ v, isEntity md v = false → copyFieldS md v = (.ok v, md)) := by
  refine ⟨rfl, rfl, fun p => rfl, fun xs => rfl, ?_, ?_, ?_⟩
  · intro t fs h
    simp [isEntity, h]
  · intro v ov h
    rw [areFieldsEqualE, if_neg (by simp [h])]
    rfl
  · intro v h
    rw [copyFieldS, if_neg (by simp [h])]

/- ### A small concrete store for witnesses (the README's `Optional`) -/

/-- A concrete metadata store: type `0` is an entity whose property `"value"`
is comparable and copyable, with the single copy parameter
`Copy("value")` at position 0 (the README's `Optional` wrapper). -/
def egMd : Metadata where
  entity := fun t => t = 0
  comparable := fun t p => t = 0 && p = "value"
  copyable := fun t p => t = 0 && p = "value"
  copyArgs := fun t => if t = 0 then [⟨"value", 0⟩] else []

/-- An `Optional`-style instance of type 0 holding the number 25. -/
def egOptional : Value := .ent 0 [("value", .prim (.num 25))]

theorem c4_witness :
    propsLoop egMd [("value", .prim (.num 25))] [("other", .prim (.num 1))] ["value"] = .ok false ∧
    isEqualE egMd egOptional (.ent 0 [("other", .prim (.num 1))]) ≠ .ok true :=
  ⟨c4_absent_comparable_field.1 egMd _ _ _ _ (by decide),
   c4_absent_comparable_field.2 egMd 0 _ 0 _ "value" (by decide) (by decide) (by decide)⟩

theorem c5_witness :
    isEqualE egMd egOptional (.prim .jsNull) = .ok false ∧
    isEqualE egMd egOptional (.ent 1 [("value", .prim (.num 25))]) = .ok false :=
  ⟨c5_exact_type egMd 0 _ _ (by decide) (fun gs h => by cases h),
   c5_exact_type egMd 0 _ _ (by decide) (fun gs h => by cases h)⟩

theorem c10_witness :
    isEntity egMd (.prim .jsNull) = false ∧
    areFieldsEqualE egMd (.prim .jsNull) (.prim (.num 3)) =
      .ok (strictEq (.prim .jsNull) (.prim (.num 3))) ∧
    copyFieldS egMd (.prim .jsUndefined) = (.ok (.prim .jsUndefined), egMd) :=
  ⟨(c10_nullish_not_entity egMd).1,
   (c10_nullish_not_entity egMd).2.2.2.2.2.1 _ _ rfl,
   (c10_nullish_not_entity egMd).2.2.2.2.2.2 _ rfl⟩

/- ### Claim C6: the Consistency Validator -/

theorem verifyCopyable_none_iff (props : List String) (params : List CopyParam) :
    verifyCopyable props params = none ↔
      ((∀ p ∈ props, p ∈ params.map CopyParam.name) ∧ (∀ pa ∈ params, pa.name ∈ props)) := by
  cases hf1 : props.find? (fun p => !((params.map CopyParam.name).contains p)) with
  | some p0 =>
      simp only [verifyCopyable, hf1]
      constructor
      · intro h; cases h
      · rintro ⟨h1, _⟩
        have hmem := List.mem_of_find?_eq_some hf1
        have hpred := List.find?_some hf1
        simp only [Bool.not_eq_true', List.contains_eq_any_beq] at hpred
        have hin : p0 ∈ params.map CopyParam.name := h1 p0 hmem
        rw [List.any_eq_false] at hpred
        have hc := hpred p0 hin
        simp at hc
  | none =>
      rw [List.find?_eq_none] at hf1
      have h1 : ∀ p ∈ props, p ∈ params.map CopyParam.name := by
        intro p hp
        have := hf1 p hp
        simpa using this
      cases hf2 : params.find? (fun pa => !(props.contains pa.name)) with
      | some pa0 =>
          simp only [verifyCopyable, List.find?_eq_none.mpr hf1, hf2]
          constructor
          · intro h; cases h
          · rintro ⟨_, h2⟩
            have hmem := List.mem_of_find?_eq_some hf2
            have hpred := List.find?_some hf2
            simp only [Bool.not_eq_true'] at hpred
            have hin : pa0.name ∈ props := h2 pa0 hmem
            rw [List.contains_eq_any_beq, List.any_eq_false] at hpred
            have hc := hpred pa0.name hin
            simp at hc
      | none =>
          rw [List.find?_eq_none] at hf2
          have h2 : ∀ pa ∈ params, pa.name ∈ props := by
            intro pa hpa
            have := hf2 pa hpa
            simpa using this
          simp only [verifyCopyable, List.find?_eq_none.mpr hf1, List.find?_eq_none.mpr hf2]
          exact ⟨fun _ => ⟨h1, h2⟩, fun _ => trivial⟩

/-- C6: the Consistency Validator checks both directions between the
copyable-property set and the copy-parameter set.  It passes exactly when the
two name sets agree; a copyable property missing from every parameter entry is
reported as a `propertyMismatch` carrying that property's name; a parameter
entry whose name is no copyable property is reported as an
`argumentMismatch` carrying that name.  The second conjunct places no
condition on the parameter side, so when both directions are violated
simultaneously the reported error is the `propertyMismatch` (copyable
properties are scanned first, then copy params). -/
theorem c6_validator_directions (props : List String) (params : List CopyParam) :
    (verifyCopyable props params = none ↔
       ((∀ p ∈ props, p ∈ params.map CopyParam.name) ∧ (∀ pa ∈ params, pa.name ∈ props))) ∧
    ((∃ p ∈ props, p ∉ params.map CopyParam.name) →
       ∃ p0 ∈ props, p0 ∉ params.map CopyParam.name ∧
         verifyCopyable props params = some (.propertyMismatch p0)) ∧
    ((∀ p ∈ props, p ∈ params.map CopyParam.name) → (∃ pa ∈ params, pa.name ∉ props) →
       ∃ pa ∈ params, pa.name ∉ props ∧
         verifyCopyable props params = some (.argumentMismatch pa.name)) := by
  refine ⟨verifyCopyable_none_iff props params, ?_, ?_⟩
  · rintro ⟨p, hp, hnp⟩
    cases hf1 : props.find? (fun p => !((params.map CopyParam.name).contains p)) with
    | none =>
        rw [List.find?_eq_none] at hf1
        exact absurd (by simpa using hf1 p hp) (by simpa using hnp)
    | some p0 =>
        refine ⟨p0, List.mem_of_find?_eq_some hf1, ?_, ?_⟩
        · have hpred := List.find?_some hf1
          simpa using hpred
        · simp only [verifyCopyable, hf1]
  · intro hcov
    rintro ⟨pa, hpa, hnpa⟩
    have hf1 : props.find? (fun p => !((params.map CopyParam.name).contains p)) = none := by
      rw [List.find?_eq_none]
      intro p hp
      simpa using hcov p hp
    cases hf2 : params.find? (fun pa => !(props.contains pa.name)) with
    | none =>
        rw [List.find?_eq_none] at hf2
        exact absurd (by simpa using hf2 pa hpa) (by simpa using hnpa)
    | some pa0 =>
        refine ⟨pa0, List.mem_of_find?_eq_some hf2, ?_, ?_⟩
        · have hpred := List.find?_some hf2
          simpa using hpred
        · simp only [verifyCopyable, hf1, hf2]

theorem c6_witness :
    (∃ p0 ∈ ["a", "b"], p0 ∉ ([⟨"c", 0⟩] : List CopyParam).map CopyParam.name ∧
       verifyCopyable ["a", "b"] [⟨"c", 0⟩] = some (.propertyMismatch p0)) ∧
    (∃ pa ∈ ([⟨"value", 0⟩] : List CopyParam), pa.name ∉ ([] : List String) ∧
       verifyCopyable [] [⟨"value", 0⟩] = some (.argumentMismatch pa.name)) ∧
    verifyCopyable ["value"] [⟨"value", 0⟩] = none :=
  ⟨(c6_validator_directions ["a", "b"] [⟨"c", 0⟩]).2.1 (by decide),
   (c6_validator_directions [] [⟨"value", 0⟩]).2.2 (by decide) (by decide),
   (c6_validator_directions ["value"] [⟨"value", 0⟩]).1.mpr (by decide)⟩

/- ### Claim C7: what the synthesized equality can throw -/

theorem jsLengthE_error (ov : Value) (e : JsError) (h : jsLengthE ov = .error e) :
    e = .lengthOfNullish := by
  cases ov with
  | prim p => cases p <;> simp [jsLengthE] at h <;> exact h.symm
  | arr xs => simp [jsLengthE] at h
  | ent t fs => simp [jsLengthE] at h

theorem isEqual_error_classified (md : Metadata) : ∀ n : Nat,
    (∀ v ov e, vsize v ≤ n → isEqualE md v ov = .error e → e = .lengthOfNullish) ∧
    (∀ tf of2 props e, vsize.fsize tf ≤ n → propsLoop md tf of2 props = .error e →
        e = .lengthOfNullish) ∧
    (∀ tv ov e, vsize tv ≤ n → areFieldsEqualE md tv ov = .error e → e = .lengthOfNullish) ∧
    (∀ xs ov i e, vsize.lsize xs ≤ n → seqLoop md xs ov i = .error e → e = .lengthOfNullish) ∧
    (∀ tv ov e, vsize tv ≤ n → compareFieldValues md tv ov = .error e →
        e = .lengthOfNullish) := by
  intro n
  induction n using Nat.strong_induction_on with
  | _ n ih =>
      have hIE : ∀ v ov e, vsize v ≤ n → isEqualE md v ov = .error e → e = .lengthOfNullish := by
        intro v ov e hv heq
        cases v with
        | prim p => simp [isEqualE, Pure.pure, Except.pure] at heq
        | arr xs => simp [isEqualE, Pure.pure, Except.pure] at heq
        | ent t tf =>
            cases ov with
            | prim p => simp [isEqualE, Pure.pure, Except.pure] at heq
            | arr xs => simp [isEqualE, Pure.pure, Except.pure] at heq
            | ent t2 of2 =>
                rw [isEqualE] at heq
                by_cases ht : t2 = t
                · rw [if_pos ht] at heq
                  have hn1 : 1 ≤ n := le_trans (vsize_pos _) hv
                  have hfs : vsize.fsize tf ≤ n - 1 := by
                    simp only [vsize] at hv
                    omega
                  exact (ih (n - 1) (by omega)).2.1 tf of2 _ e hfs heq
                · rw [if_neg ht] at heq
                  cases heq
      have hAF : ∀ tv ov e, vsize tv ≤ n → areFieldsEqualE md tv ov = .error e →
          e = .lengthOfNullish := by
        intro tv ov e hv heq
        rw [areFieldsEqualE] at heq
        by_cases hent : isEntity md tv = true
        · rw [if_pos hent] at heq
          exact hIE tv ov e hv heq
        · rw [if_neg hent] at heq
          cases heq
      have hSL : ∀ xs ov i e, vsize.lsize xs ≤ n → seqLoop md xs ov i = .error e →
          e = .lengthOfNullish := by
        intro xs
        induction xs with
        | nil =>
            intro ov i e _ heq
            rw [seqLoop_nil] at heq
            cases heq
        | cons x rest ihx =>
            intro ov i e hls heq
            rw [seqLoop_cons] at heq
            simp only [vsize.lsize] at hls
            cases hc : areFieldsEqualE md x (jsIndex ov i) with
            | error e2 =>
                rw [hc] at heq
                cases heq
                exact hAF x (jsIndex ov i) _ (by omega) hc
            | ok b =>
                rw [hc] at heq
                cases b
                · cases heq
                · exact ihx ov (i + 1) e (by omega) heq
      have hCF : ∀ tv ov e, vsize tv ≤ n → compareFieldValues md tv ov = .error e →
          e = .lengthOfNullish := by
        intro tv ov e hv heq
        cases tv with
        | arr xs =>
            rw [compareFieldValues] at heq
            cases hl : jsLengthE ov with
            | error e2 =>
                rw [hl] at heq
                simp only [Bind.bind, Except.bind] at heq
                cases heq
                exact jsLengthE_error ov _ hl
            | ok olen =>
                rw [hl] at heq
                simp only [Bind.bind, Except.bind] at heq
                by_cases hcond : some xs.length ≠ olen
                · rw [if_pos hcond] at heq
                  cases heq
                · rw [if_neg hcond] at heq
                  have hls : vsize.lsize xs ≤ n := by
                    simp only [vsize] at hv
                    omega
                  exact hSL xs ov 0 e hls heq
        | prim p =>
            simp only [compareFieldValues] at heq
            exact hAF _ ov e hv heq
        | ent t fs =>
            simp only [compareFieldValues] at heq
            exact hAF _ ov e hv heq
      have hPL : ∀ tf of2 props e, vsize.fsize tf ≤ n → propsLoop md tf of2 props = .error e →
          e = .lengthOfNullish := by
        intro tf of2 props
        induction props with
        | nil =>
            intro e _ heq
            rw [propsLoop_nil] at heq
            cases heq
        | cons p rest ihp =>
            intro e hfs heq
            rw [propsLoop_cons] at heq
            by_cases hk : hasKey of2 p
            · rw [if_pos hk] at heq
              cases hc : compareFieldValues md (getField tf p) (getField of2 p) with
              | error e2 =>
                  rw [hc] at heq
                  cases heq
                  exact hCF _ _ _ (le_trans (vsize_getField_le tf p) hfs) hc
              | ok b =>
                  rw [hc] at heq
                  cases b
                  · cases heq
                  · exact ihp e hfs heq
            · rw [if_neg hk] at heq
              cases heq
      exact ⟨hIE, hPL, hAF, hSL, hCF⟩

/-- C7 (evaluation at the failing input): comparing an instance whose
comparable field holds a sequence against a same-type instance whose value at
that field is `null` makes the synthesized `isEqual` read `.length` of `null`
and throw a `TypeError`, instead of returning `false`. -/
theorem c7_throws_on_sequence_vs_null :
    isEqualE egMd (.ent 0 [("value", .arr [])]) (.ent 0 [("value", .prim .jsNull)]) =
      .error .lengthOfNullish := by
  rw [isEqualE, if_pos rfl]
  have hprops : (([("value", Value.arr [])].map Prod.fst).filter
      (fun k => egMd.comparable 0 k)) = ["value"] := by decide
  rw [hprops, propsLoop_cons, if_pos (by decide)]
  have h1 : getField [("value", Value.arr [])] "value" = .arr [] := rfl
  have h2 : getField [("value", Value.prim .jsNull)] "value" = .prim .jsNull := rfl
  rw [h1, h2, compareFieldValues]
  simp [jsLengthE, Bind.bind, Except.bind]

/- ### Claim C8: reflexivity of the synthesized equality -/

theorem strictEq_refl_aux : ∀ n : Nat,
    (∀ v, vsize v ≤ n → nanFree v = true → strictEq v v = true) ∧
    (∀ xs, vsize.lsize xs ≤ n → nanFree.nanFreeList xs = true →
        strictEq.strictEqList xs xs = true) ∧
    (∀ fs, vsize.fsize fs ≤ n → nanFree.nanFreeFields fs = true →
        strictEq.strictEqFields fs fs = true) := by
  intro n
  induction n using Nat.strong_induction_on with
  | _ n ih =>
      have hV : ∀ v, vsize v ≤ n → nanFree v = true → strictEq v v = true := by
        intro v hv hnf
        have hn1 : 1 ≤ n := le_trans (vsize_pos v) hv
        cases v with
        | prim p => cases p <;> simp [strictEq, nanFree] at hnf ⊢
        | arr xs =>
            rw [nanFree] at hnf
            rw [strictEq]
            refine (ih (n - 1) (by omega)).2.1 xs ?_ hnf
            simp only [vsize] at hv
            omega
        | ent t fs =>
            rw [nanFree] at hnf
            rw [strictEq]
            have hf : strictEq.strictEqFields fs fs = true := by
              refine (ih (n - 1) (by omega)).2.2 fs ?_ hnf
              simp only [vsize] at hv
              omega
            simp [hf]
      have hL : ∀ xs, vsize.lsize xs ≤ n → nanFree.nanFreeList xs = true →
          strictEq.strictEqList xs xs = true := by
        intro xs
        induction xs with
        | nil => intro _ _; rw [strictEq.strictEqList]
        | cons x rest ihx =>
            intro hls hnf
            simp only [vsize.lsize] at hls
            rw [nanFree.nanFreeList, Bool.and_eq_true] at hnf
            have hx := vsize_pos x
            rw [strictEq.strictEqList]
            rw [hV x (by omega) hnf.1, ihx (by omega) hnf.2]
            rfl
      have hF : ∀ fs, vsize.fsize fs ≤ n → nanFree.nanFreeFields fs = true →
          strictEq.strictEqFields fs fs = true := by
        intro fs
        induction fs with
        | nil => intro _ _; rw [strictEq.strictEqFields]
        | cons kv rest ihf =>
            intro hfs hnf
            cases kv with
            | mk k v =>
                simp only [vsize.fsize] at hfs
                rw [nanFree.nanFreeFields, Bool.and_eq_true] at hnf
                have hx := vsize_pos v
                rw [strictEq.strictEqFields]
                rw [hV v (by omega) hnf.1, ihf (by omega) hnf.2]
                simp
      exact ⟨hV, hL, hF⟩

theorem strictEq_refl_of_nanFree {v : Value} (h : nanFree v = true) : strictEq v v = true :=
  (strictEq_refl_aux (vsize v)).1 v le_rfl h

mutual

/-- All the values the synthesized equality would compare with `===` when an
instance is compared against itself are `NaN`-free: on a marked instance, the
comparable fields' values (elementwise on sequences); on anything else, the
whole value (since `===` descends structurally through the model's identified
references). -/
def selfCmpSafe (md : Metadata) : Value → Bool
  | .ent t fs => if md.entity t then selfCmpSafeFields md t fs else nanFree (.ent t fs)
  | v => nanFree v

/-- `selfCmpSafe` over an instance's fields: only comparable fields matter. -/
def selfCmpSafeFields (md : Metadata) (t : Nat) : List (String × Value) → Bool
  | [] => true
  | (p, v) :: fs =>
      (!(md.comparable t p) || selfCmpSafeArg md v) && selfCmpSafeFields md t fs

/-- `selfCmpSafe` for one compared field value: sequences are compared
elementwise (the array branch), everything else like `selfCmpSafe`. -/
def selfCmpSafeArg (md : Metadata) : Value → Bool
  | .arr xs => selfCmpSafeList md xs
  | .prim p => nanFree (.prim p)
  | .ent t fs => if md.entity t then selfCmpSafeFields md t fs else nanFree (.ent t fs)

/-- `selfCmpSafe` for the elements of a compared sequence. -/
def selfCmpSafeList (md : Metadata) : List Value → Bool
  | [] => true
  | x :: xs => selfCmpSafe md x && selfCmpSafeList md xs

end

theorem selfCmpSafeFields_getField {md : Metadata} {t : Nat} {fs : List (String × Value)}
    (h : selfCmpSafeFields md t fs = true) (p : String) (hc : md.comparable t p = true) :
    selfCmpSafeArg md (getField fs p) = true := by
  induction fs with
  | nil => rfl
  | cons kv rest ih =>
      cases kv with
      | mk k v =>
          rw [selfCmpSafeFields, Bool.and_eq_true] at h
          rw [getField_cons]
          by_cases hk : k = p
          · subst hk
            have := h.1
            simp only [hc, Bool.not_true, Bool.false_or] at this
            simpa using this
          · simp only [hk, if_false]
            exact ih h.2

theorem isEqual_refl_aux (md : Metadata) : ∀ n : Nat,
    (∀ t fs, vsize (Value.ent t fs) ≤ n → selfCmpSafeFields md t fs = true →
        isEqualE md (.ent t fs) (.ent t fs) = .ok true) ∧
    (∀ tv, vsize tv ≤ n → selfCmpSafe md tv = true →
        areFieldsEqualE md tv tv = .ok true) ∧
    (∀ tv, vsize tv ≤ n → selfCmpSafeArg md tv = true →
        compareFieldValues md tv tv = .ok true) := by
  intro n
  induction n using Nat.strong_induction_on with
  | _ n ih =>
      have hI : ∀ t fs, vsize (Value.ent t fs) ≤ n → selfCmpSafeFields md t fs = true →
          isEqualE md (.ent t fs) (.ent t fs) = .ok true := by
        intro t fs hv hsafe
        have hn1 : 1 ≤ n := le_trans (vsize_pos _) hv
        have hffs : vsize.fsize fs ≤ n - 1 := by
          simp only [vsize] at hv
          omega
        rw [isEqualE, if_pos rfl]
        have hsub : ∀ props : List String,
            (∀ p ∈ props, p ∈ fs.map Prod.fst ∧ md.comparable t p = true) →
            propsLoop md fs fs props = .ok true := by
          intro props
          induction props with
          | nil => intro _; exact propsLoop_nil md fs fs
          | cons p rest ihp =>
              intro hmem
              obtain ⟨hpk, hpc⟩ := hmem p (List.mem_cons_self p rest)
              have hk : hasKey fs p = true := (hasKey_iff_mem fs p).mpr hpk
              rw [propsLoop_cons, if_pos hk]
              have hcf : compareFieldValues md (getField fs p) (getField fs p) = .ok true :=
                (ih (n - 1) (by omega)).2.2 _ (le_trans (vsize_getField_le fs p) hffs)
                  (selfCmpSafeFields_getField hsafe p hpc)
              rw [hcf]
              exact ihp (fun q hq => hmem q (List.mem_cons_of_mem p hq))
        refine hsub _ ?_
        intro p hp
        have := List.mem_filter.mp hp
        exact ⟨this.1, by simpa using this.2⟩
      have hA : ∀ tv, vsize tv ≤ n → selfCmpSafe md tv = true →
          areFieldsEqualE md tv tv = .ok true := by
        intro tv hv hsafe
        rw [areFieldsEqualE]
        by_cases hent : isEntity md tv = true
        · rw [if_pos hent]
          cases tv with
          | prim p => simp [isEntity] at hent
          | arr xs => simp [isEntity] at hent
          | ent t fs =>
              rw [selfCmpSafe] at hsafe
              rw [if_pos (by simpa [isEntity] using hent)] at hsafe
              exact hI t fs hv hsafe
        · rw [if_neg hent]
          have hnf : nanFree tv = true := by
            cases tv with
            | prim p => simpa [selfCmpSafe] using hsafe
            | arr xs => simpa [selfCmpSafe] using hsafe
            | ent t fs =>
                rw [selfCmpSafe] at hsafe
                rw [if_neg (by simpa [isEntity] using hent)] at hsafe
                exact hsafe
          rw [strictEq_refl_of_nanFree hnf]
          rfl
      have hpair : ∀ ys, vsize.lsize ys ≤ n → selfCmpSafeList md ys = true →
          pairwiseCompare md (ys.zip ys) = .ok true := by
        intro ys
        induction ys with
        | nil => intro _ _; rw [List.zip_nil_left, pairwiseCompare]; rfl
        | cons y rest ihy =>
            intro hls hsafe
            simp only [vsize.lsize] at hls
            rw [selfCmpSafeList, Bool.and_eq_true] at hsafe
            have hy := vsize_pos y
            rw [List.zip_cons_cons, pairwiseCompare_cons, hA y (by omega) hsafe.1]
            exact ihy (by omega) hsafe.2
      have hC : ∀ tv, vsize tv ≤ n → selfCmpSafeArg md tv = true →
          compareFieldValues md tv tv = .ok true := by
        intro tv hv hsafe
        cases tv with
        | arr xs =>
            rw [compareFieldValues]
            simp only [jsLengthE, Bind.bind, Except.bind, ne_eq, not_true_eq_false, if_false]
            have hzip := seqLoop_eq_pairwise md xs [] xs rfl
            simp only [List.nil_append, List.length_nil] at hzip
            rw [hzip]
            rw [selfCmpSafeArg] at hsafe
            refine hpair xs ?_ hsafe
            simp only [vsize] at hv
            omega
        | prim p =>
            simp only [compareFieldValues]
            refine hA _ hv ?_
            simp only [selfCmpSafe]
            simpa [selfCmpSafeArg] using hsafe
        | ent t fs =>
            simp only [compareFieldValues]
            refine hA _ hv ?_
            simp only [selfCmpSafe]
            simpa [selfCmpSafeArg] using hsafe
      exact ⟨hI, hA, hC⟩

/-- C8 (counterexample to the claim as stated): a synthesized instance whose
comparable field holds `NaN` is not `isEqual` to itself, because the field is
compared with `===` and `NaN !== NaN`. -/
theorem c8_counterexample :
    isEqualE egMd (.ent 0 [("value", .prim .nan)]) (.ent 0 [("value", .prim .nan)]) =
      .ok false := by
  rw [isEqualE, if_pos rfl]
  have hprops : (([("value", Value.prim .nan)].map Prod.fst).filter
      (fun k => egMd.comparable 0 k)) = ["value"] := by decide
  rw [hprops, propsLoop_cons, if_pos (by decide)]
  have h1 : getField [("value", Value.prim .nan)] "value" = .prim .nan := rfl
  rw [h1]
  have hcf : compareFieldValues egMd (.prim .nan) (.prim .nan) = .ok false := by
    simp only [compareFieldValues]
    rw [areFieldsEqualE, if_neg (by decide)]
    rw [show strictEq (.prim .nan) (.prim .nan) = false from rfl]
    rfl
  rw [hcf]

/-- C8 (amended): a synthesized instance is `isEqual` to itself whenever every
value it actually compares against itself — the comparable fields' values,
elementwise on sequences, recursively through nested synthesized records — is
`NaN`-free (`selfCmpSafe`).  JS `NaN` is not `===` itself, so a `NaN` among
the compared values falsifies reflexivity, as `c8_counterexample` shows; all
other field values (nested records, sequences, nested sequences, primitives)
are covered. -/
theorem c8_reflexivity (md : Metadata) (t : Nat) (fs : List (String × Value))
    (hmark : md.entity t = true) (hsafe : selfCmpSafe md (.ent t fs) = true) :
    isEqualE md (.ent t fs) (.ent t fs) = .ok true := by
  rw [selfCmpSafe, if_pos hmark] at hsafe
  exact (isEqual_refl_aux md (vsize (Value.ent t fs))).1 t fs le_rfl hsafe

theorem c8_witness :
    isEqualE egMd egOptional egOptional = .ok true :=
  c8_reflexivity egMd 0 [("value", .prim (.num 25))] (by decide) (by decide)

/- ### Claim C9: the store across isEqual/copy calls -/

instance : IsTotal CopyParam (fun a b => a.index ≤ b.index) :=
  ⟨fun a b => Nat.le_total a.index b.index⟩

instance : IsTrans CopyParam (fun a b => a.index ≤ b.index) :=
  ⟨fun _ _ _ => Nat.le_trans⟩

theorem sortCopyParams_idem (l : List CopyParam) :
    sortCopyParams (sortCopyParams l) = sortCopyParams l :=
  List.Sorted.insertionSort_eq (List.sorted_insertionSort _ l)

theorem sortCopyParams_perm (l : List CopyParam) : List.Perm (sortCopyParams l) l :=
  List.perm_insertionSort _ l

/-- The `entity`/`comparable`/`copyable` facets of two stores agree. -/
def FlagsEq (md md' : Metadata) : Prop :=
  md'.entity = md.entity ∧ md'.comparable = md.comparable ∧ md'.copyable = md.copyable

/-- Each stored copy-parameter list of `md'` is that of `md`, either untouched
or sorted in place by position. -/
def ArgsInv (md md' : Metadata) : Prop :=
  ∀ u, md'.copyArgs u = md.copyArgs u ∨ md'.copyArgs u = sortCopyParams (md.copyArgs u)

theorem flagsEq_refl (md : Metadata) : FlagsEq md md :=
  ⟨rfl, rfl, rfl⟩

theorem flagsEq_trans {md1 md2 md3 : Metadata} (h1 : FlagsEq md1 md2) (h2 : FlagsEq md2 md3) :
    FlagsEq md1 md3 :=
  ⟨h2.1.trans h1.1, h2.2.1.trans h1.2.1, h2.2.2.trans h1.2.2⟩

theorem argsInv_refl (md : Metadata) : ArgsInv md md :=
  fun _ => Or.inl rfl

theorem argsInv_trans {md1 md2 md3 : Metadata} (h1 : ArgsInv md1 md2) (h2 : ArgsInv md2 md3) :
    ArgsInv md1 md3 := by
  intro u
  rcases h2 u with h | h <;> rcases h1 u with h' | h'
  · exact Or.inl (h.trans h')
  · exact Or.inr (h.trans h')
  · exact Or.inr (by rw [h, h'])
  · exact Or.inr (by rw [h, h', sortCopyParams_idem])

theorem copy_state_aux : ∀ n : Nat,
    (∀ md (v : Value), vsize v ≤ n →
        FlagsEq md (copyS md v).2 ∧ ArgsInv md (copyS md v).2) ∧
    (∀ md (fs : List (String × Value)) (params : List CopyParam), vsize.fsize fs ≤ n →
        FlagsEq md (copyArgsLoop md fs params).2 ∧ ArgsInv md (copyArgsLoop md fs params).2) ∧
    (∀ md (v : Value), vsize v ≤ n →
        FlagsEq md (copyValueS md v).2 ∧ ArgsInv md (copyValueS md v).2) ∧
    (∀ md (v : Value), vsize v ≤ n →
        FlagsEq md (copyFieldS md v).2 ∧ ArgsInv md (copyFieldS md v).2) ∧
    (∀ md (xs : List Value), vsize.lsize xs ≤ n →
        FlagsEq md (copyElemsLoop md xs).2 ∧ ArgsInv md (copyElemsLoop md xs).2) := by
  intro n
  induction n using Nat.strong_induction_on with
  | _ n ih =>
      have hS : ∀ md (v : Value), vsize v ≤ n →
          FlagsEq md (copyS md v).2 ∧ ArgsInv md (copyS md v).2 := by
        intro md v hv
        cases v with
        | prim p =>
            simp only [copyS]
            exact ⟨flagsEq_refl md, argsInv_refl md⟩
        | arr xs =>
            simp only [copyS]
            exact ⟨flagsEq_refl md, argsInv_refl md⟩
        | ent t fs =>
            have hn1 : 1 ≤ n := le_trans (vsize_pos _) hv
            have hffs : vsize.fsize fs ≤ n - 1 := by
              simp only [vsize] at hv
              omega
            have h01 : FlagsEq md
                { md with copyArgs := fun u =>
                    if u = t then sortCopyParams (md.copyArgs t) else md.copyArgs u } ∧
                ArgsInv md
                { md with copyArgs := fun u =>
                    if u = t then sortCopyParams (md.copyArgs t) else md.copyArgs u } := by
              refine ⟨⟨rfl, rfl, rfl⟩, ?_⟩
              intro u
              by_cases hu : u = t
              · subst hu
                exact Or.inr (by simp)
              · exact Or.inl (by simp [hu])
            simp only [copyS]
            split
            · exact h01
            · split
              · next e md2 heq2 =>
                  have h12 := (ih (n - 1) (by omega)).2.1
                    { md with copyArgs := fun u =>
                        if u = t then sortCopyParams (md.copyArgs t) else md.copyArgs u }
                    fs (sortCopyParams (md.copyArgs t)) hffs
                  rw [heq2] at h12
                  exact ⟨flagsEq_trans h01.1 h12.1, argsInv_trans h01.2 h12.2⟩
              · next values md2 heq2 =>
                  have h12 := (ih (n - 1) (by omega)).2.1
                    { md with copyArgs := fun u =>
                        if u = t then sortCopyParams (md.copyArgs t) else md.copyArgs u }
                    fs (sortCopyParams (md.copyArgs t)) hffs
                  rw [heq2] at h12
                  exact ⟨flagsEq_trans h01.1 h12.1, argsInv_trans h01.2 h12.2⟩
      have hF : ∀ md (v : Value), vsize v ≤ n →
          FlagsEq md (copyFieldS md v).2 ∧ ArgsInv md (copyFieldS md v).2 := by
        intro md v hv
        rw [copyFieldS]
        by_cases hent : isEntity md v = true
        · rw [if_pos hent]
          exact hS md v hv
        · rw [if_neg hent]
          exact ⟨flagsEq_refl md, argsInv_refl md⟩
      have hE : ∀ md (xs : List Value), vsize.lsize xs ≤ n →
          FlagsEq md (copyElemsLoop md xs).2 ∧ ArgsInv md (copyElemsLoop md xs).2 := by
        intro md xs
        induction xs generalizing md with
        | nil =>
            intro _
            simp only [copyElemsLoop]
            exact ⟨flagsEq_refl md, argsInv_refl md⟩
        | cons x rest ihx =>
            intro hls
            simp only [vsize.lsize] at hls
            have hx := vsize_pos x
            rw [copyElemsLoop]
            split
            · next e md' heq =>
                have h01 := hF md x (by omega)
                rw [heq] at h01
                exact h01
            · next z md' heq =>
                have h01 := hF md x (by omega)
                rw [heq] at h01
                split
                · next e md'' heq2 =>
                    have h12 := ihx md' (by omega)
                    rw [heq2] at h12
                    exact ⟨flagsEq_trans h01.1 h12.1, argsInv_trans h01.2 h12.2⟩
                · next zs md'' heq2 =>
                    have h12 := ihx md' (by omega)
                    rw [heq2] at h12
                    exact ⟨flagsEq_trans h01.1 h12.1, argsInv_trans h01.2 h12.2⟩
      have hV : ∀ md (v : Value), vsize v ≤ n →
          FlagsEq md (copyValueS md v).2 ∧ ArgsInv md (copyValueS md v).2 := by
        intro md v hv
        cases v with
        | arr xs =>
            have hls : vsize.lsize xs ≤ n := by
              simp only [vsize] at hv
              omega
            rw [copyValueS]
            split
            · next e md' heq =>
                have h01 := hE md xs hls
                rw [heq] at h01
                exact h01
            · next zs md' heq =>
                have h01 := hE md xs hls
                rw [heq] at h01
                exact h01
        | prim p =>
            simp only [copyValueS]
            exact hF md _ hv
        | ent t fs =>
            simp only [copyValueS]
            exact hF md _ hv
      have hA : ∀ md (fs : List (String × Value)) (params : List CopyParam),
          vsize.fsize fs ≤ n →
          FlagsEq md (copyArgsLoop md fs params).2 ∧ ArgsInv md (copyArgsLoop md fs params).2 := by
        intro md fs params
        induction params generalizing md with
        | nil =>
            intro _
            simp only [copyArgsLoop]
            exact ⟨flagsEq_refl md, argsInv_refl md⟩
        | cons pa rest ihp =>
            intro hfs
            rw [copyArgsLoop]
            split
            · next e md' heq =>
                have h01 := hV md (getField fs pa.name)
                  (le_trans (vsize_getField_le fs pa.name) hfs)
                rw [heq] at h01
                exact h01
            · next z md' heq =>
                have h01 := hV md (getField fs pa.name)
                  (le_trans (vsize_getField_le fs pa.name) hfs)
                rw [heq] at h01
                split
                · next e md'' heq2 =>
                    have h12 := ihp md' hfs
                    rw [heq2] at h12
                    exact ⟨flagsEq_trans h01.1 h12.1, argsInv_trans h01.2 h12.2⟩
                · next vs md'' heq2 =>
                    have h12 := ihp md' hfs
                    rw [heq2] at h12
                    exact ⟨flagsEq_trans h01.1 h12.1, argsInv_trans h01.2 h12.2⟩
      exact ⟨hS, hA, hV, hF, hE⟩

/-- A store whose copy-parameter list for type 0 was declared out of position
order (`Copy` on a later parameter ran first). -/
def c9Md : Metadata where
  entity := fun t => t = 0
  comparable := fun t p => t = 0 && (p = "a" || p = "b")
  copyable := fun t p => t = 0 && (p = "a" || p = "b")
  copyArgs := fun t => if t = 0 then [⟨"b", 1⟩, ⟨"a", 0⟩] else []

def c9A : Value := .ent 0 [("a", .prim (.num 1)), ("b", .prim (.num 2))]

/-- C9 (counterexample): one `copy()` call rewrites the stored copy-parameter
list of type 0 — `getCopyArgs(constructor).sort(copyParamSort)` sorts the
array held in the metadata store in place — so the stored list's element order
is not identical before and after the call, contradicting the claim. -/
theorem c9_counterexample :
    (copyS c9Md c9A).2.copyArgs 0 ≠ c9Md.copyArgs 0 ∧
    (copyS c9Md c9A).2.copyArgs 0 = [⟨"a", 0⟩, ⟨"b", 1⟩] ∧
    c9Md.copyArgs 0 = [⟨"b", 1⟩, ⟨"a", 0⟩] := by
  have heval : (copyS c9Md c9A).2.copyArgs 0 = [⟨"a", 0⟩, ⟨"b", 1⟩] := by
    simp [copyS, c9Md, c9A, copyArgsLoop, copyValueS, copyFieldS, copyElemsLoop,
      sortCopyParams, List.insertionSort, List.orderedInsert, verifyCopyable,
      getField, isEntity, List.find?, List.filter, construct]
  refine ⟨?_, heval, rfl⟩
  rw [heval]
  decide

/-- C9 (amended): the synthesized equality reads the store but never writes it
(its model consumes the store read-only and returns no store), and a `copy()`
call leaves the `entity`/`comparable`/`copyable` facets untouched; its only
write is the in-place sort of stored copy-parameter lists, so after any number
of calls each stored list is either its original value or its stable sort by
position — in particular a permutation of the original (the set of entries
never changes), and only the annotation declarations add entries. -/
theorem c9_amended (md : Metadata) (v : Value) :
    ((copyS md v).2.entity = md.entity ∧
     (copyS md v).2.comparable = md.comparable ∧
     (copyS md v).2.copyable = md.copyable) ∧
    (∀ t, (copyS md v).2.copyArgs t = md.copyArgs t ∨
          (copyS md v).2.copyArgs t = sortCopyParams (md.copyArgs t)) ∧
    (∀ t, List.Perm ((copyS md v).2.copyArgs t) (md.copyArgs t)) := by
  have h := (copy_state_aux (vsize v)).1 md v le_rfl
  refine ⟨h.1, h.2, ?_⟩
  intro t
  rcases h.2 t with heq | heq
  · rw [heq]
  · rw [heq]
    exact sortCopyParams_perm (md.copyArgs t)

/- ### Claim C3: sequence-valued copyable fields -/

theorem isEntity_flagsEq {md md0 : Metadata} (h : FlagsEq md md0) (v : Value) :
    isEntity md0 v = isEntity md v := by
  cases v with
  | prim p => rfl
  | arr xs => rfl
  | ent t fs =>
      simp only [isEntity]
      rw [h.1]

theorem copyElems_elementwise (md : Metadata) :
    ∀ (xs : List Value) (md0 : Metadata) (zs : List Value) (md' : Metadata),
      FlagsEq md md0 →
      copyElemsLoop md0 xs = (.ok zs, md') →
      zs.length = xs.length ∧
      ∀ i (hx : i < xs.length) (hz : i < zs.length),
        (isEntity md (xs.get ⟨i, hx⟩) = false → zs.get ⟨i, hz⟩ = xs.get ⟨i, hx⟩) ∧
        (isEntity md (xs.get ⟨i, hx⟩) = true →
          ∃ md1 md2, FlagsEq md md1 ∧
            copyS md1 (xs.get ⟨i, hx⟩) = (.ok (zs.get ⟨i, hz⟩), md2)) := by
  intro xs
  induction xs with
  | nil =>
      intro md0 zs md' hfl heq
      simp only [copyElemsLoop, Prod.mk.injEq] at heq
      obtain ⟨h1, -⟩ := heq
      cases h1
      refine ⟨rfl, ?_⟩
      intro i hx hz
      simp at hx
  | cons x rest ih =>
      intro md0 zs md' hfl heq
      rw [copyElemsLoop] at heq
      split at heq
      · exact Except.noConfusion (congrArg Prod.fst heq)
      · next _ z md1 heqh =>
          split at heq
          · exact Except.noConfusion (congrArg Prod.fst heq)
          · next _ zs1 md2 heqt =>
              have hzz : zs = z :: zs1 ∧ md' = md2 := by
                have h1 := congrArg Prod.fst heq
                have h2 := congrArg Prod.snd heq
                simp only at h1 h2
                exact ⟨(Except.ok.inj h1.symm), h2.symm⟩
              obtain ⟨rfl, rfl⟩ := hzz
              have hfl01 : FlagsEq md0 md1 := by
                have := (copy_state_aux (vsize x)).2.2.2.1 md0 x le_rfl
                rw [heqh] at this
                exact this.1
              have hflmd1 : FlagsEq md md1 := flagsEq_trans hfl hfl01
              obtain ⟨hlen, helem⟩ := ih md1 zs1 _ hflmd1 heqt
              refine ⟨by simp [hlen], ?_⟩
              intro i hx hz
              cases i with
              | zero =>
                  constructor
                  · intro hne
                    rw [copyFieldS] at heqh
                    rw [isEntity_flagsEq hfl] at heqh
                    simp only [List.get] at hne ⊢
                    rw [hne, if_neg (by simp)] at heqh
                    have := congrArg Prod.fst heqh
                    simp only at this
                    exact (Except.ok.inj this).symm
                  · intro hyes
                    refine ⟨md0, md1, hfl, ?_⟩
                    rw [copyFieldS] at heqh
                    rw [isEntity_flagsEq hfl] at heqh
                    simp only [List.get] at hyes ⊢
                    rw [hyes, if_pos rfl] at heqh
                    exact heqh
              | succ j =>
                  have hx' : j < rest.length := by simpa using hx
                  have hz' : j < zs1.length := by simpa using hz
                  have := helem j hx' hz'
                  simpa using this

theorem copyArgs_elementwise (md : Metadata) (fs : List (String × Value)) :
    ∀ (params : List CopyParam) (md0 : Metadata) (values : List Value) (md' : Metadata),
      FlagsEq md md0 →
      copyArgsLoop md0 fs params = (.ok values, md') →
      values.length = params.length ∧
      ∀ i (hp : i < params.length) (hv : i < values.length),
        ∃ md1 md2, FlagsEq md md1 ∧
          copyValueS md1 (getField fs (params.get ⟨i, hp⟩).name) =
            (.ok (values.get ⟨i, hv⟩), md2) := by
  intro params
  induction params with
  | nil =>
      intro md0 values md' hfl heq
      simp only [copyArgsLoop, Prod.mk.injEq] at heq
      obtain ⟨h1, -⟩ := heq
      cases h1
      refine ⟨rfl, ?_⟩
      intro i hp hv
      simp at hp
  | cons pa rest ih =>
      intro md0 values md' hfl heq
      rw [copyArgsLoop] at heq
      split at heq
      · exact Except.noConfusion (congrArg Prod.fst heq)
      · next _ z md1 heqh =>
          split at heq
          · exact Except.noConfusion (congrArg Prod.fst heq)
          · next _ vs1 md2 heqt =>
              have hzz : values = z :: vs1 := by
                have h1 := congrArg Prod.fst heq
                simp only at h1
                exact Except.ok.inj h1.symm
              subst hzz
              have hfl01 : FlagsEq md0 md1 := by
                have := (copy_state_aux (vsize (getField fs pa.name))).2.2.1 md0
                  (getField fs pa.name) le_rfl
                rw [heqh] at this
                exact this.1
              have hflmd1 : FlagsEq md md1 := flagsEq_trans hfl hfl01
              obtain ⟨hlen, helem⟩ := ih md1 vs1 _ hflmd1 heqt
              refine ⟨by simp [hlen], ?_⟩
              intro i hp hv
              cases i with
              | zero => exact ⟨md0, md1, hfl, heqh⟩
              | succ j =>
                  have hp' : j < rest.length := by simpa using hp
                  have hv' : j < vs1.length := by simpa using hv
                  have := helem j hp' hv'
                  simpa using this

/-- C3: on a copyable field holding an ordered sequence, the per-argument rule
of `copy` (applied by the argument-list builder `copyArgsLoop` to each sorted
copy parameter's field value, per the second conjunct) produces a fresh
sequence of the same length whose elements follow the per-value rule: an
element that is an instance of a synthesized type is replaced by the result of
its own `copy()` (run against the store state current at its turn, whose
flags agree with the original), and every other element is reused as-is. -/
theorem c3_sequence_copy :
    (∀ (md : Metadata) (xs : List Value) (z : Value) (md' : Metadata),
      copyValueS md (.arr xs) = (.ok z, md') →
      ∃ zs, z = .arr zs ∧ zs.length = xs.length ∧
        ∀ i (hx : i < xs.length) (hz : i < zs.length),
          (isEntity md (xs.get ⟨i, hx⟩) = false → zs.get ⟨i, hz⟩ = xs.get ⟨i, hx⟩) ∧
          (isEntity md (xs.get ⟨i, hx⟩) = true →
            ∃ md1 md2, FlagsEq md md1 ∧
              copyS md1 (xs.get ⟨i, hx⟩) = (.ok (zs.get ⟨i, hz⟩), md2))) ∧
    (∀ (md : Metadata) (fs : List (String × Value)) (params : List CopyParam)
        (values : List Value) (md' : Metadata),
      copyArgsLoop md fs params = (.ok values, md') →
      values.length = params.length ∧
      ∀ i (hp : i < params.length) (hv : i < values.length),
        ∃ md1 md2, FlagsEq md md1 ∧
          copyValueS md1 (getField fs (params.get ⟨i, hp⟩).name) =
            (.ok (values.get ⟨i, hv⟩), md2)) := by
  constructor
  · intro md xs z md' heq
    rw [copyValueS] at heq
    split at heq
    · exact Except.noConfusion (congrArg Prod.fst heq)
    · next _ zs md1 heqe =>
        have hz : z = .arr zs := by
          have h1 := congrArg Prod.fst heq
          simp only at h1
          exact Except.ok.inj h1.symm
        subst hz
        exact ⟨zs, rfl,
          copyElems_elementwise md xs md zs md1 (flagsEq_refl md) heqe⟩
  · intro md fs params values md' heq
    exact copyArgs_elementwise md fs params md values md' (flagsEq_refl md) heq

/-- A sequence holding one nested entity (an `Optional` of 25) and one plain
number. -/
def c3Xs : List Value := [.ent 0 [("value", .prim (.num 25))], .prim (.num 7)]

theorem c3_witness :
    ∃ zs, (Value.arr [.ent 0 [("value", .prim (.num 25))], .prim (.num 7)]) = .arr zs ∧
      zs.length = c3Xs.length ∧
      ∀ i (hx : i < c3Xs.length) (hz : i < zs.length),
        (isEntity egMd (c3Xs.get ⟨i, hx⟩) = false → zs.get ⟨i, hz⟩ = c3Xs.get ⟨i, hx⟩) ∧
        (isEntity egMd (c3Xs.get ⟨i, hx⟩) = true →
          ∃ md1 md2, FlagsEq egMd md1 ∧
            copyS md1 (c3Xs.get ⟨i, hx⟩) = (.ok (zs.get ⟨i, hz⟩), md2)) :=
  c3_sequence_copy.1 egMd c3Xs _ (copyValueS egMd (.arr c3Xs)).2 (by
    have h1 : (copyValueS egMd (.arr c3Xs)).1 =
        .ok (.arr [.ent 0 [("value", .prim (.num 25))], .prim (.num 7)]) := by
      simp [copyValueS, copyElemsLoop, copyFieldS, copyS, copyArgsLoop, isEntity, egMd,
        c3Xs, sortCopyParams, List.insertionSort, List.orderedInsert, verifyCopyable,
        getField, List.find?, List.filter, construct]
    calc copyValueS egMd (.arr c3Xs)
        = ((copyValueS egMd (.arr c3Xs)).1, (copyValueS egMd (.arr c3Xs)).2) := rfl
      _ = (.ok (.arr [.ent 0 [("value", .prim (.num 25))], .prim (.num 7)]),
            (copyValueS egMd (.arr c3Xs)).2) := by rw [h1])

/- ### Claim C1: copy roundtrip -/

theorem isEqual_congr_aux : ∀ n : Nat,
    (∀ (md md0 : Metadata) (v ov : Value), FlagsEq md md0 → vsize v ≤ n →
        isEqualE md0 v ov = isEqualE md v ov) ∧
    (∀ (md md0 : Metadata) (tf of2 : List (String × Value)) (props : List String),
        FlagsEq md md0 → vsize.fsize tf ≤ n →
        propsLoop md0 tf of2 props = propsLoop md tf of2 props) ∧
    (∀ (md md0 : Metadata) (tv ov : Value), FlagsEq md md0 → vsize tv ≤ n →
        areFieldsEqualE md0 tv ov = areFieldsEqualE md tv ov) ∧
    (∀ (md md0 : Metadata) (xs : List Value) (ov : Value) (i : Nat),
        FlagsEq md md0 → vsize.lsize xs ≤ n →
        seqLoop md0 xs ov i = seqLoop md xs ov i) ∧
    (∀ (md md0 : Metadata) (tv ov : Value), FlagsEq md md0 → vsize tv ≤ n →
        compareFieldValues md0 tv ov = compareFieldValues md tv ov) := by
  intro n
  induction n using Nat.strong_induction_on with
  | _ n ih =>
      have hIE : ∀ (md md0 : Metadata) (v ov : Value), FlagsEq md md0 → vsize v ≤ n →
          isEqualE md0 v ov = isEqualE md v ov := by
        intro md md0 v ov hfl hv
        cases v with
        | prim p => simp [isEqualE]
        | arr xs => simp [isEqualE]
        | ent t tf =>
            cases ov with
            | prim p => simp [isEqualE]
            | arr xs => simp [isEqualE]
            | ent t2 of2 =>
                have hn1 : 1 ≤ n := le_trans (vsize_pos _) hv
                have hffs : vsize.fsize tf ≤ n - 1 := by
                  simp only [vsize] at hv
                  omega
                simp only [isEqualE]
                rw [hfl.2.1]
                by_cases ht : t2 = t
                · simp only [ht, if_true]
                  exact (ih (n - 1) (by omega)).2.1 md md0 tf of2 _ hfl hffs
                · simp only [ht, if_false]
      have hAF : ∀ (md md0 : Metadata) (tv ov : Value), FlagsEq md md0 → vsize tv ≤ n →
          areFieldsEqualE md0 tv ov = areFieldsEqualE md tv ov := by
        intro md md0 tv ov hfl hv
        rw [areFieldsEqualE, areFieldsEqualE, isEntity_flagsEq hfl]
        by_cases hent : isEntity md tv = true
        · rw [if_pos hent, if_pos hent]
          exact hIE md md0 tv ov hfl hv
        · rw [if_neg hent, if_neg hent]
      have hSL : ∀ (md md0 : Metadata) (xs : List Value) (ov : Value) (i : Nat),
          FlagsEq md md0 → vsize.lsize xs ≤ n →
          seqLoop md0 xs ov i = seqLoop md xs ov i := by
        intro md md0 xs
        induction xs with
        | nil => intro ov i hfl _; rw [seqLoop_nil, seqLoop_nil]
        | cons x rest ihx =>
            intro ov i hfl hls
            simp only [vsize.lsize] at hls
            have hx := vsize_pos x
            rw [seqLoop_cons, seqLoop_cons, hAF md md0 x (jsIndex ov i) hfl (by omega)]
            cases areFieldsEqualE md x (jsIndex ov i) with
            | error e => rfl
            | ok b =>
                cases b
                · rfl
                · exact ihx ov (i + 1) hfl (by omega)
      have hCF : ∀ (md md0 : Metadata) (tv ov : Value), FlagsEq md md0 → vsize tv ≤ n →
          compareFieldValues md0 tv ov = compareFieldValues md tv ov := by
        intro md md0 tv ov hfl hv
        cases tv with
        | arr xs =>
            rw [compareFieldValues, compareFieldValues]
            cases hl : jsLengthE ov with
            | error e => rfl
            | ok olen =>
                simp only [Bind.bind, Except.bind]
                by_cases hcond : some xs.length ≠ olen
                · rw [if_pos hcond, if_pos hcond]
                · rw [if_neg hcond, if_neg hcond]
                  refine hSL md md0 xs ov 0 hfl ?_
                  simp only [vsize] at hv
                  omega
        | prim p =>
            simp only [compareFieldValues]
            exact hAF md md0 _ ov hfl hv
        | ent t fs =>
            simp only [compareFieldValues]
            exact hAF md md0 _ ov hfl hv
      have hPL : ∀ (md md0 : Metadata) (tf of2 : List (String × Value)) (props : List String),
          FlagsEq md md0 → vsize.fsize tf ≤ n →
          propsLoop md0 tf of2 props = propsLoop md tf of2 props := by
        intro md md0 tf of2 props
        induction props with
        | nil => intro hfl _; rw [propsLoop_nil, propsLoop_nil]
        | cons p rest ihp =>
            intro hfl hffs
            rw [propsLoop_cons, propsLoop_cons,
              hCF md md0 (getField tf p) (getField of2 p) hfl
                (le_trans (vsize_getField_le tf p) hffs)]
            by_cases hk : hasKey of2 p
            · rw [if_pos hk, if_pos hk]
              cases compareFieldValues md (getField tf p) (getField of2 p) with
              | error e => rfl
              | ok b =>
                  cases b
                  · rfl
                  · exact ihp hfl hffs
            · rw [if_neg hk, if_neg hk]
      exact ⟨hIE, hPL, hAF, hSL, hCF⟩

theorem isEqual_flags_congr {md md0 : Metadata} (hfl : FlagsEq md md0) (v ov : Value) :
    isEqualE md0 v ov = isEqualE md v ov :=
  (isEqual_congr_aux (vsize v)).1 md md0 v ov hfl le_rfl

/-- The value at a comparable field contains no `NaN` at the positions the
roundtrip comparison reaches with `===` (JS `NaN === NaN` is false): for a
sequence, every non-entity element is `NaN`-free; any other non-entity value
is `NaN`-free as a whole.  (Entity values are compared by delegation to their
own `isEqual`, so they are covered by `copySafe`'s recursion into every field
instead.)  This is the elementwise condition for sequence elements. -/
def cmpValListOk (md : Metadata) : List Value → Bool
  | [] => true
  | x :: xs => (isEntity md x || nanFree x) && cmpValListOk md xs

/-- `cmpValOk` for a single field value: sequences go through `cmpValListOk`,
anything else directly. -/
def cmpValOk (md : Metadata) : Value → Bool
  | .arr xs => cmpValListOk md xs
  | v => isEntity md v || nanFree v

/-- Every comparable field's value of the instance satisfies `cmpValOk`. -/
def copyCmpOk (md : Metadata) (t : Nat) : List (String × Value) → Bool
  | [] => true
  | (p, v) :: fs => (!(md.comparable t p) || cmpValOk md v) && copyCmpOk md t fs

mutual

/-- Decidable sufficient condition, against a store `md`, for the amended
copy-roundtrip claim: at every synthesized instance reachable through fields
and sequence elements, (i) its copyable property names and declared
copy-parameter names agree as sets (so the Consistency Validator passes),
(ii) every comparable property name is among the copy-parameter names (so the
reconstructed instance is not missing any compared field), and (iii) every
comparable field's value is `NaN`-free at the positions compared with `===`
(JS `NaN` is not `===` itself). -/
def copySafe (md : Metadata) : Value → Bool
  | .prim _ => true
  | .arr xs => copySafeList md xs
  | .ent t fs =>
      let names := (md.copyArgs t).map CopyParam.name
      let copyProps := (fs.map Prod.fst).filter (fun k => md.copyable t k)
      copyProps.all (fun p => names.contains p) &&
      names.all (fun q => copyProps.contains q) &&
      ((fs.map Prod.fst).filter (fun k => md.comparable t k)).all
        (fun p => names.contains p) &&
      copyCmpOk md t fs &&
      copySafeFields md fs

/-- `copySafe` for sequence elements. -/
def copySafeList (md : Metadata) : List Value → Bool
  | [] => true
  | x :: xs => copySafe md x && copySafeList md xs

/-- `copySafe` for every field value of an instance. -/
def copySafeFields (md : Metadata) : List (String × Value) → Bool
  | [] => true
  | (_, v) :: fs => copySafe md v && copySafeFields md fs

end

theorem copySafe_getField {md : Metadata} {fs : List (String × Value)}
    (h : copySafeFields md fs = true) (p : String) : copySafe md (getField fs p) = true := by
  induction fs with
  | nil => rfl
  | cons kv rest ih =>
      cases kv with
      | mk k v =>
          rw [copySafeFields, Bool.and_eq_true] at h
          rw [getField_cons]
          by_cases hk : k = p
          · simpa [hk] using h.1
          · simp only [hk, if_false]
            exact ih h.2

theorem copySafeList_mem {md : Metadata} {xs : List Value}
    (h : copySafeList md xs = true) : ∀ x ∈ xs, copySafe md x = true := by
  induction xs with
  | nil => intro x hx; cases hx
  | cons y rest ih =>
      rw [copySafeList, Bool.and_eq_true] at h
      intro x hx
      rcases List.mem_cons.mp hx with rfl | hx2
      · exact h.1
      · exact ih h.2 x hx2

theorem copyCmpOk_getField {md : Metadata} {t : Nat} {fs : List (String × Value)}
    (h : copyCmpOk md t fs = true) (p : String) (hc : md.comparable t p = true) :
    cmpValOk md (getField fs p) = true := by
  induction fs with
  | nil => rfl
  | cons kv rest ih =>
      cases kv with
      | mk k v =>
          rw [copyCmpOk, Bool.and_eq_true] at h
          rw [getField_cons]
          by_cases hk : k = p
          · subst hk
            have := h.1
            simp only [hc, Bool.not_true, Bool.false_or] at this
            simpa using this
          · simp only [hk, if_false]
            exact ih h.2

theorem string_contains_iff (l : List String) (a : String) :
    l.contains a = true ↔ a ∈ l :=
  List.elem_iff

theorem mem_sort_names (l : List CopyParam) (p : String) :
    p ∈ (sortCopyParams l).map CopyParam.name ↔ p ∈ l.map CopyParam.name :=
  ((sortCopyParams_perm l).map CopyParam.name).mem_iff

/-- The per-value relation between an original field value and what
`copyField` produced for it: entity values compare `isEqual` to their copy;
all other values are reused as-is. -/
def copiedField (md : Metadata) (v z : Value) : Prop :=
  if isEntity md v = true then isEqualE md v z = .ok true else z = v

/-- The per-argument relation of `copy`: a sequence is rebuilt elementwise
from `copiedField`-related elements; anything else is `copiedField`-related
directly. -/
def copiedArg (md : Metadata) (v z : Value) : Prop :=
  match v with
  | .arr xs => ∃ zs, z = .arr zs ∧ List.Forall₂ (copiedField md) xs zs
  | v => copiedField md v z

theorem copiedField_areFields {md : Metadata} {v z : Value}
    (hok : (isEntity md v || nanFree v) = true) (h : copiedField md v z) :
    areFieldsEqualE md v z = .ok true := by
  rw [copiedField] at h
  rw [areFieldsEqualE]
  by_cases hent : isEntity md v = true
  · rw [if_pos hent] at h ⊢
    exact h
  · rw [if_neg hent] at h ⊢
    rw [h]
    have hnf : nanFree v = true := by
      rw [Bool.or_eq_true] at hok
      rcases hok with hok | hok
      · exact absurd hok hent
      · exact hok
    rw [strictEq_refl_of_nanFree hnf]
    rfl

theorem pairwise_of_copied {md : Metadata} : ∀ {xs zs : List Value},
    List.Forall₂ (copiedField md) xs zs → cmpValListOk md xs = true →
    pairwiseCompare md (xs.zip zs) = .ok true := by
  intro xs zs hf2
  induction hf2 with
  | nil => intro _; rw [List.zip_nil_left, pairwiseCompare]; rfl
  | @cons x z xs2 zs2 hx hrest ihz =>
      intro hok
      rw [cmpValListOk, Bool.and_eq_true] at hok
      rw [List.zip_cons_cons, pairwiseCompare_cons, copiedField_areFields hok.1 hx]
      exact ihz hok.2

theorem copiedArg_cfv {md : Metadata} {v z : Value} (hok : cmpValOk md v = true)
    (h : copiedArg md v z) :
    compareFieldValues md v z = .ok true := by
  cases v with
  | arr xs =>
      rw [copiedArg] at h
      obtain ⟨zs, rfl, hf2⟩ := h
      rw [cmpValOk] at hok
      rw [compareFieldValues]
      simp only [jsLengthE, Bind.bind, Except.bind]
      rw [if_neg (by simp [hf2.length_eq])]
      have hz := seqLoop_eq_pairwise md xs [] zs hf2.length_eq
      simp only [List.nil_append, List.length_nil] at hz
      rw [hz]
      exact pairwise_of_copied hf2 hok
  | prim p =>
      simp only [copiedArg] at h
      simp only [cmpValOk] at hok
      simp only [compareFieldValues]
      exact copiedField_areFields hok h
  | ent t fs =>
      simp only [copiedArg] at h
      simp only [cmpValOk] at hok
      simp only [compareFieldValues]
      exact copiedField_areFields hok h

theorem zip_getField_rel {R : String → Value → Prop} :
    ∀ {names : List String} {values : List Value},
      List.Forall₂ (fun nm z => R nm z) names values →
      ∀ p ∈ names, hasKey (names.zip values) p = true ∧ R p (getField (names.zip values) p) := by
  intro names values hf2
  induction hf2 with
  | nil => intro p hp; cases hp
  | @cons nm z restn restv hz hrest ih =>
      intro p hp
      rw [List.zip_cons_cons]
      by_cases hnm : nm = p
      · subst hnm
        constructor
        · simp [hasKey]
        · rw [getField_cons, if_pos rfl]
          exact hz
      · rcases List.mem_cons.mp hp with rfl | hp2
        · exact absurd rfl hnm
        · obtain ⟨ih1, ih2⟩ := ih p hp2
          constructor
          · simp [hasKey] at ih1 ⊢
            exact Or.inr ih1
          · rw [getField_cons, if_neg hnm]
            exact ih2

theorem forall2_param_names {Q : String → Value → Prop} :
    ∀ {params : List CopyParam} {values : List Value},
      List.Forall₂ (fun pa z => Q pa.name z) params values →
      List.Forall₂ (fun nm z => Q nm z) (params.map CopyParam.name) values := by
  intro params values hf2
  induction hf2 with
  | nil => exact List.Forall₂.nil
  | cons hz hrest ih => exact List.Forall₂.cons hz ih

theorem propsLoop_zip (md : Metadata) (fs : List (String × Value))
    (names : List String) (values : List Value)
    (hf2 : List.Forall₂ (fun nm z => copiedArg md (getField fs nm) z) names values) :
    ∀ props : List String, (∀ p ∈ props, p ∈ names) →
      (∀ p ∈ props, cmpValOk md (getField fs p) = true) →
      propsLoop md fs (names.zip values) props = .ok true := by
  intro props
  induction props with
  | nil => intro _ _; exact propsLoop_nil md fs _
  | cons p rest ihp =>
      intro hmem hok
      obtain ⟨hk, hrel⟩ := zip_getField_rel hf2 p (hmem p (List.mem_cons_self p rest))
      rw [propsLoop_cons, if_pos hk,
        copiedArg_cfv (hok p (List.mem_cons_self p rest)) hrel]
      exact ihp (fun q hq => hmem q (List.mem_cons_of_mem p hq))
        (fun q hq => hok q (List.mem_cons_of_mem p hq))

theorem roundtrip_isEqual (md : Metadata) (t : Nat) (fs : List (String × Value))
    (names : List String) (values : List Value)
    (hf2 : List.Forall₂ (fun nm z => copiedArg md (getField fs nm) z) names values)
    (hcmp : ∀ p ∈ (fs.map Prod.fst).filter (fun k => md.comparable t k), p ∈ names)
    (hok : ∀ p ∈ (fs.map Prod.fst).filter (fun k => md.comparable t k),
      cmpValOk md (getField fs p) = true) :
    isEqualE md (.ent t fs) (.ent t (names.zip values)) = .ok true := by
  rw [isEqualE, if_pos rfl]
  exact propsLoop_zip md fs names values hf2 _ hcmp hok

theorem copyElemsLoop_cons_ok {md0 : Metadata} {x : Value} {rest : List Value} {z : Value}
    {md1 : Metadata} {zs : List Value} {md2 : Metadata}
    (h1 : copyFieldS md0 x = (.ok z, md1)) (h2 : copyElemsLoop md1 rest = (.ok zs, md2)) :
    copyElemsLoop md0 (x :: rest) = (.ok (z :: zs), md2) := by
  rw [copyElemsLoop]
  split
  · next _ e mdx heqx =>
      rw [h1] at heqx
      exact Except.noConfusion (congrArg Prod.fst heqx)
  · next _ z2 md12 heqx =>
      rw [h1] at heqx
      have hza := congrArg Prod.fst heqx
      have hzb := congrArg Prod.snd heqx
      simp only at hza hzb
      cases Except.ok.inj hza
      cases hzb
      split
      · next _ e mdx heqy =>
          rw [h2] at heqy
          exact Except.noConfusion (congrArg Prod.fst heqy)
      · next _ zs2 md22 heqy =>
          rw [h2] at heqy
          have hya := congrArg Prod.fst heqy
          have hyb := congrArg Prod.snd heqy
          simp only at hya hyb
          cases Except.ok.inj hya
          cases hyb
          rfl

theorem copyArgsLoop_cons_ok {md0 : Metadata} {fs : List (String × Value)} {pa : CopyParam}
    {rest : List CopyParam} {z : Value} {md1 : Metadata} {vs : List Value} {md2 : Metadata}
    (h1 : copyValueS md0 (getField fs pa.name) = (.ok z, md1))
    (h2 : copyArgsLoop md1 fs rest = (.ok vs, md2)) :
    copyArgsLoop md0 fs (pa :: rest) = (.ok (z :: vs), md2) := by
  rw [copyArgsLoop]
  split
  · next _ e mdx heqx =>
      rw [h1] at heqx
      exact Except.noConfusion (congrArg Prod.fst heqx)
  · next _ z2 md12 heqx =>
      rw [h1] at heqx
      have hza := congrArg Prod.fst heqx
      have hzb := congrArg Prod.snd heqx
      simp only at hza hzb
      cases Except.ok.inj hza
      cases hzb
      split
      · next _ e mdx heqy =>
          rw [h2] at heqy
          exact Except.noConfusion (congrArg Prod.fst heqy)
      · next _ vs2 md22 heqy =>
          rw [h2] at heqy
          have hya := congrArg Prod.fst heqy
          have hyb := congrArg Prod.snd heqy
          simp only at hya hyb
          cases Except.ok.inj hya
          cases hyb
          rfl

theorem copyValueS_arr_ok {md0 : Metadata} {xs zs : List Value} {md1 : Metadata}
    (h : copyElemsLoop md0 xs = (.ok zs, md1)) :
    copyValueS md0 (.arr xs) = (.ok (.arr zs), md1) := by
  rw [copyValueS]
  split
  · next _ e mdx heqx =>
      rw [h] at heqx
      exact Except.noConfusion (congrArg Prod.fst heqx)
  · next _ zs2 md12 heqx =>
      rw [h] at heqx
      have hza := congrArg Prod.fst heqx
      have hzb := congrArg Prod.snd heqx
      simp only at hza hzb
      cases Except.ok.inj hza
      cases hzb
      rfl

theorem copyS_ent_ok {md0 : Metadata} {t : Nat} {fs : List (String × Value)}
    {S : List CopyParam} {values : List Value} {md2 : Metadata}
    (hsort : sortCopyParams (md0.copyArgs t) = S)
    (hver : verifyCopyable ((fs.map Prod.fst).filter (fun k => md0.copyable t k)) S = none)
    (hloop : copyArgsLoop
        { md0 with copyArgs := fun u => if u = t then S else md0.copyArgs u } fs S =
      (.ok values, md2)) :
    copyS md0 (.ent t fs) = (.ok (construct t (S.map CopyParam.name) values), md2) := by
  simp only [copyS]
  rw [hsort]
  split
  · next e heqv =>
      rw [hver] at heqv
      cases heqv
  · split
    · next _ e mdx heqy =>
        rw [hloop] at heqy
        exact Except.noConfusion (congrArg Prod.fst heqy)
    · next _ values2 md22 heqy =>
        rw [hloop] at heqy
        have hya := congrArg Prod.fst heqy
        have hyb := congrArg Prod.snd heqy
        simp only at hya hyb
        cases Except.ok.inj hya
        cases hyb
        rfl

theorem copy_roundtrip_aux (md : Metadata) : ∀ n : Nat,
    (∀ (md0 : Metadata) (v : Value), vsize v ≤ n → FlagsEq md md0 → ArgsInv md md0 →
        copySafe md v = true → isEntity md v = true →
        ∃ c md', copyS md0 v = (.ok c, md') ∧ copiedField md v c) ∧
    (∀ (md0 : Metadata) (fs : List (String × Value)) (params : List CopyParam),
        vsize.fsize fs ≤ n → FlagsEq md md0 → ArgsInv md md0 →
        copySafeFields md fs = true →
        ∃ values md', copyArgsLoop md0 fs params = (.ok values, md') ∧
          List.Forall₂ (fun pa z => copiedArg md (getField fs pa.name) z) params values) ∧
    (∀ (md0 : Metadata) (v : Value), vsize v ≤ n → FlagsEq md md0 → ArgsInv md md0 →
        copySafe md v = true →
        ∃ z md', copyValueS md0 v = (.ok z, md') ∧ copiedArg md v z) ∧
    (∀ (md0 : Metadata) (v : Value), vsize v ≤ n → FlagsEq md md0 → ArgsInv md md0 →
        copySafe md v = true →
        ∃ z md', copyFieldS md0 v = (.ok z, md') ∧ copiedField md v z) ∧
    (∀ (md0 : Metadata) (xs : List Value), vsize.lsize xs ≤ n → FlagsEq md md0 →
        ArgsInv md md0 → copySafeList md xs = true →
        ∃ zs md', copyElemsLoop md0 xs = (.ok zs, md') ∧
          List.Forall₂ (copiedField md) xs zs) := by
  intro n
  induction n using Nat.strong_induction_on with
  | _ n ih =>
      have hR : ∀ (md0 : Metadata) (v : Value), vsize v ≤ n → FlagsEq md md0 →
          ArgsInv md md0 → copySafe md v = true → isEntity md v = true →
          ∃ c md', copyS md0 v = (.ok c, md') ∧ copiedField md v c := by
        intro md0 v hv hfl hargs hsafe hent
        cases v with
        | prim p => simp [isEntity] at hent
        | arr xs => simp [isEntity] at hent
        | ent t fs =>
            have hn1 : 1 ≤ n := le_trans (vsize_pos _) hv
            have hffs : vsize.fsize fs ≤ n - 1 := by
              simp only [vsize] at hv
              omega
            simp only [copySafe, Bool.and_eq_true] at hsafe
            obtain ⟨⟨⟨⟨h1, h2⟩, h3⟩, h5⟩, h4⟩ := hsafe
            have hsort : sortCopyParams (md0.copyArgs t) =
                sortCopyParams (md.copyArgs t) := by
              rcases hargs t with h | h
              · rw [h]
              · rw [h, sortCopyParams_idem]
            have hprops0 : (fs.map Prod.fst).filter (fun k => md0.copyable t k) =
                (fs.map Prod.fst).filter (fun k => md.copyable t k) := by
              rw [hfl.2.2]
            have hver : verifyCopyable
                ((fs.map Prod.fst).filter (fun k => md.copyable t k))
                (sortCopyParams (md.copyArgs t)) = none := by
              rw [verifyCopyable_none_iff]
              constructor
              · intro p hp
                have hc := List.all_eq_true.mp h1 p hp
                rw [mem_sort_names]
                exact (string_contains_iff _ _).mp hc
              · intro pa hpa
                have hmem : pa ∈ md.copyArgs t :=
                  (sortCopyParams_perm (md.copyArgs t)).subset hpa
                have hpan : pa.name ∈ (md.copyArgs t).map CopyParam.name :=
                  List.mem_map_of_mem CopyParam.name hmem
                have hc := List.all_eq_true.mp h2 pa.name hpan
                exact (string_contains_iff _ _).mp hc
            have hfl1 : FlagsEq md
                { md0 with copyArgs := fun u =>
                    if u = t then sortCopyParams (md.copyArgs t) else md0.copyArgs u } :=
              flagsEq_trans hfl ⟨rfl, rfl, rfl⟩
            have hargs1 : ArgsInv md
                { md0 with copyArgs := fun u =>
                    if u = t then sortCopyParams (md.copyArgs t) else md0.copyArgs u } := by
              intro u
              by_cases hu : u = t
              · subst hu
                exact Or.inr (by simp)
              · rcases hargs u with h | h
                · exact Or.inl (by simp [hu, h])
                · exact Or.inr (by simp [hu, h])
            obtain ⟨values, md2, hloop, hf2⟩ := (ih (n - 1) (by omega)).2.1
              { md0 with copyArgs := fun u =>
                  if u = t then sortCopyParams (md.copyArgs t) else md0.copyArgs u }
              fs (sortCopyParams (md.copyArgs t)) hffs hfl1 hargs1 h4
            refine ⟨construct t ((sortCopyParams (md.copyArgs t)).map CopyParam.name) values,
              md2, ?_, ?_⟩
            · refine copyS_ent_ok hsort ?_ hloop
              rw [hprops0]
              exact hver
            · rw [copiedField, if_pos hent]
              have hcmp : ∀ p ∈ (fs.map Prod.fst).filter (fun k => md.comparable t k),
                  p ∈ (sortCopyParams (md.copyArgs t)).map CopyParam.name := by
                intro p hp
                have hc := List.all_eq_true.mp h3 p hp
                rw [mem_sort_names]
                exact (string_contains_iff _ _).mp hc
              have hok : ∀ p ∈ (fs.map Prod.fst).filter (fun k => md.comparable t k),
                  cmpValOk md (getField fs p) = true := by
                intro p hp
                exact copyCmpOk_getField h5 p (by simpa using List.of_mem_filter hp)
              exact roundtrip_isEqual md t fs _ values (forall2_param_names hf2) hcmp hok
      have hF : ∀ (md0 : Metadata) (v : Value), vsize v ≤ n → FlagsEq md md0 →
          ArgsInv md md0 → copySafe md v = true →
          ∃ z md', copyFieldS md0 v = (.ok z, md') ∧ copiedField md v z := by
        intro md0 v hv hfl hargs hsafe
        by_cases hent : isEntity md v = true
        · obtain ⟨c, md', heq, hcf⟩ := hR md0 v hv hfl hargs hsafe hent
          refine ⟨c, md', ?_, hcf⟩
          rw [copyFieldS, isEntity_flagsEq hfl, if_pos hent]
          exact heq
        · refine ⟨v, md0, ?_, ?_⟩
          · rw [copyFieldS, isEntity_flagsEq hfl, if_neg hent]
          · rw [copiedField, if_neg hent]
      have hE : ∀ (md0 : Metadata) (xs : List Value), vsize.lsize xs ≤ n → FlagsEq md md0 →
          ArgsInv md md0 → copySafeList md xs = true →
          ∃ zs md', copyElemsLoop md0 xs = (.ok zs, md') ∧
            List.Forall₂ (copiedField md) xs zs := by
        intro md0 xs
        induction xs generalizing md0 with
        | nil =>
            intro _ _ _ _
            exact ⟨[], md0, by rw [copyElemsLoop], List.Forall₂.nil⟩
        | cons x rest ihx =>
            intro hls hfl hargs hsafe
            simp only [vsize.lsize] at hls
            have hx := vsize_pos x
            rw [copySafeList, Bool.and_eq_true] at hsafe
            obtain ⟨z, md1, heqh, hcf⟩ := hF md0 x (by omega) hfl hargs hsafe.1
            have hst := (copy_state_aux (vsize x)).2.2.2.1 md0 x le_rfl
            rw [heqh] at hst
            have hfl1 : FlagsEq md md1 := flagsEq_trans hfl hst.1
            have hargs1 : ArgsInv md md1 := argsInv_trans hargs hst.2
            obtain ⟨zs, md2, heqt, hf2⟩ := ihx md1 (by omega) hfl1 hargs1 hsafe.2
            exact ⟨z :: zs, md2, copyElemsLoop_cons_ok heqh heqt, List.Forall₂.cons hcf hf2⟩
      have hV : ∀ (md0 : Metadata) (v : Value), vsize v ≤ n → FlagsEq md md0 →
          ArgsInv md md0 → copySafe md v = true →
          ∃ z md', copyValueS md0 v = (.ok z, md') ∧ copiedArg md v z := by
        intro md0 v hv hfl hargs hsafe
        cases v with
        | arr xs =>
            have hls : vsize.lsize xs ≤ n := by
              simp only [vsize] at hv
              omega
            rw [copySafe] at hsafe
            obtain ⟨zs, md', heqe, hf2⟩ := hE md0 xs hls hfl hargs hsafe
            refine ⟨.arr zs, md', copyValueS_arr_ok heqe, ?_⟩
            rw [copiedArg]
            exact ⟨zs, rfl, hf2⟩
        | prim p =>
            obtain ⟨z, md', heq, hcf⟩ := hF md0 _ hv hfl hargs hsafe
            refine ⟨z, md', ?_, ?_⟩
            · simp only [copyValueS]
              exact heq
            · simp only [copiedArg]
              exact hcf
        | ent t fs =>
            obtain ⟨z, md', heq, hcf⟩ := hF md0 _ hv hfl hargs hsafe
            refine ⟨z, md', ?_, ?_⟩
            · simp only [copyValueS]
              exact heq
            · simp only [copiedArg]
              exact hcf
      have hL : ∀ (md0 : Metadata) (fs : List (String × Value)) (params : List CopyParam),
          vsize.fsize fs ≤ n → FlagsEq md md0 → ArgsInv md md0 →
          copySafeFields md fs = true →
          ∃ values md', copyArgsLoop md0 fs params = (.ok values, md') ∧
            List.Forall₂ (fun pa z => copiedArg md (getField fs pa.name) z) params values := by
        intro md0 fs params
        induction params generalizing md0 with
        | nil =>
            intro _ _ _ _
            exact ⟨[], md0, by rw [copyArgsLoop], List.Forall₂.nil⟩
        | cons pa rest ihp =>
            intro hfs hfl hargs hsafe
            have hvg : vsize (getField fs pa.name) ≤ n :=
              le_trans (vsize_getField_le fs pa.name) hfs
            obtain ⟨z, md1, heqh, hca⟩ := hV md0 (getField fs pa.name) hvg hfl hargs
              (copySafe_getField hsafe pa.name)
            have hst := (copy_state_aux (vsize (getField fs pa.name))).2.2.1 md0
              (getField fs pa.name) le_rfl
            rw [heqh] at hst
            have hfl1 : FlagsEq md md1 := flagsEq_trans hfl hst.1
            have hargs1 : ArgsInv md md1 := argsInv_trans hargs hst.2
            obtain ⟨vs, md2, heqt, hf2⟩ := ihp md1 hfs hfl1 hargs1 hsafe
            exact ⟨z :: vs, md2, copyArgsLoop_cons_ok heqh heqt,
              List.Forall₂.cons hca hf2⟩
      exact ⟨hR, hL, hV, hF, hE⟩

/-- C1 (amended): for a synthesized instance `v` such that every synthesized
instance reachable from it through fields and sequence elements passes the
Consistency Validator, has all its comparable properties among its declared
copy-parameter names, and has `NaN`-free values at the positions its
comparable fields are compared with `===` (all bundled in `copySafe`; JS
`NaN` is not `===` itself, not even its own shallow copy), `copy()` succeeds
and the original is `isEqual` to the copy, evaluated against the store as
`copy()` left it.  (Reconstruction follows the spec's canonical constructor
contract, `construct`.) -/
theorem c1_copy_roundtrip (md : Metadata) (v : Value)
    (hsafe : copySafe md v = true) (hent : isEntity md v = true) :
    ∃ c md', copyS md v = (.ok c, md') ∧ isEqualE md' v c = .ok true := by
  obtain ⟨c, md', heq, hcf⟩ := (copy_roundtrip_aux md (vsize v)).1 md v le_rfl
    (flagsEq_refl md) (argsInv_refl md) hsafe hent
  refine ⟨c, md', heq, ?_⟩
  rw [copiedField, if_pos hent] at hcf
  have hst := (copy_state_aux (vsize v)).1 md v le_rfl
  rw [heq] at hst
  rw [isEqual_flags_congr hst.1 v c]
  exact hcf

/-- A store where type 0's field `"x"` is comparable and copyable with a copy
parameter, while `"y"` is comparable only — the Consistency Validator is
satisfied (it checks only the copyable side). -/
def c1Md : Metadata where
  entity := fun t => t = 0
  comparable := fun t p => t = 0 && (p = "x" || p = "y")
  copyable := fun t p => t = 0 && p = "x"
  copyArgs := fun t => if t = 0 then [⟨"x", 0⟩] else []

def c1A : Value := .ent 0 [("x", .prim (.num 1)), ("y", .prim (.num 2))]

/-- C1 (counterexample to the claim as stated): for `c1A`, the copyable-field
set and copy-parameter set satisfy the Consistency Validator and `copy()`
succeeds, yet `a.isEqual(a.copy())` is `false`: the comparable-only field
`"y"` does not exist on the reconstructed copy, so equality short-circuits at
the membership test. -/
theorem c1_counterexample :
    verifyCopyable
        ((([("x", Value.prim (.num 1)), ("y", Value.prim (.num 2))]).map Prod.fst).filter
          (fun k => c1Md.copyable 0 k))
        (sortCopyParams (c1Md.copyArgs 0)) = none ∧
    (copyS c1Md c1A).1 = .ok (.ent 0 [("x", .prim (.num 1))]) ∧
    isEqualE (copyS c1Md c1A).2 c1A (.ent 0 [("x", .prim (.num 1))]) = .ok false := by
  refine ⟨by decide, ?_, ?_⟩
  · simp [copyS, copyArgsLoop, copyValueS, copyFieldS, isEntity, c1Md, c1A,
      sortCopyParams, List.insertionSort, List.orderedInsert, verifyCopyable,
      getField, List.find?, List.filter, construct]
  · have hfl := ((copy_state_aux (vsize c1A)).1 c1Md c1A le_rfl).1
    rw [isEqual_flags_congr hfl]
    simp [isEqualE, propsLoop, compareFieldValues, areFieldsEqualE, isEntity, c1Md, c1A,
      getField, hasKey, List.find?, List.filter, strictEq, Bind.bind, Except.bind,
      Pure.pure, Except.pure]

/-- A store for a `Person`-like type 1 (fields `name`, `age`, `genders`, all
comparable and copyable, parameters declared in reverse position order) whose
`age` field nests an `Optional` (type 0) and whose `genders` field holds a
sequence of `Optional`s. -/
def c1WMd : Metadata where
  entity := fun t => t = 0 || t = 1
  comparable := fun t p =>
    (t = 0 && p = "value") || (t = 1 && (p = "name" || p = "age" || p = "genders"))
  copyable := fun t p =>
    (t = 0 && p = "value") || (t = 1 && (p = "name" || p = "age" || p = "genders"))
  copyArgs := fun t =>
    if t = 0 then [⟨"value", 0⟩]
    else if t = 1 then [⟨"genders", 2⟩, ⟨"age", 1⟩, ⟨"name", 0⟩] else []

def c1WA : Value := .ent 1
  [("name", .prim (.str "Noemi")),
   ("age", .ent 0 [("value", .prim (.num 20))]),
   ("genders", .arr [.ent 0 [("value", .prim (.str "F"))],
                     .ent 0 [("value", .prim (.str "X"))]])]

theorem c1_witness :
    ∃ c md', copyS c1WMd c1WA = (.ok c, md') ∧ isEqualE md' c1WA c = .ok true :=
  c1_copy_roundtrip c1WMd c1WA (by decide) (by decide)
